import Mathlib

/-!
Verification of the overlap-detection pipeline of `find-overlap.py`.

The program reads a device, computes one MD5 hash per 1 MiB block, and
searches the resulting fingerprint sequence for a contiguous range that is
repeated at a constant positional offset.  This file gives a shallow
embedding of the algorithmic core (`generate_matching_hashes`,
`eliminate_non_duplicates`, `compute_offset_blocks`,
`find_start_matching_block`, `find_stop_matching_block`,
`compute_candidate_ranges`, the two candidate filters and
`find_overlap_from_hashes`) and proves the specified properties about it.

Modelling conventions:
* A fingerprint (16-byte MD5 digest in the source) is an element of an
  arbitrary type `α` with decidable equality; a fingerprint sequence is a
  `List α` and block numbers are natural numbers.
* Python dictionaries preserve insertion order, and the code relies on that
  order when it iterates over them; they are modelled as association lists
  to which new keys are appended at the end.
* Python integers are modelled by `Int` (offsets, which arise as a
  difference of two block numbers) or by `Nat` (block numbers, which are
  non-negative throughout).  The float `rank` is modelled by `ℚ`; all
  ranks produced on the inputs exercised here are exact in both models.
* `list.sort()` / `sort(key=..., reverse=True)` are stable sorts and are
  modelled by `List.insertionSort`, which is stable for a total preorder
  and therefore extensionally equal to the sort used by the source.
* Subscripting `md5_hashes[i]` is modelled by an `Option`-valued access
  `hashAt`; in the pipeline every access is in bounds (proved below), so
  the out-of-domain behaviour (`none` instead of an `IndexError`) is never
  exercised.
* The script runs under Python 2 (its test suite uses `str`/`bytes`
  interchangeably), so in `int(round(len(blocks) / 2))` the division is
  integer division and the expression equals `len(blocks) // 2`.
* The optional `--dump-hashes` side effect writes a file and does not
  change the returned value; `find_overlap_from_hashes` is modelled
  without it.  The substitution it writes (`'#%d'` with the first block
  number having the hash) is modelled by `substitute_hashes`, which maps
  each hash to that first block number (the label `'#%d'` is an injective
  image of that number, so it has the same equality pattern).
-/

namespace FindOverlap

variable {α : Type*} [DecidableEq α] {β : Type*} [DecidableEq β]

/-- Result record of the analysis, mirroring the `Candidate` namedtuple of
`find-overlap.py` (fields `offset`, `start_block`, `stop_block`,
`total_blocks`, `rank`). -/
structure Candidate where
  offset : Int
  start_block : Nat
  stop_block : Nat
  total_blocks : Nat
  rank : ℚ
deriving DecidableEq, Repr

/-- One step of the loop body of `generate_matching_hashes`: record that
block number `n` has hash `h`, appending `n` to the entry for `h` if one
exists and appending a new entry `(h, [n])` otherwise. -/
def insertHash : List (α × List Nat) → α → Nat → List (α × List Nat)
  | [], h, n => [(h, [n])]
  | (k, v) :: rest, h, n =>
    if k = h then (k, v ++ [n]) :: rest else (k, v) :: insertHash rest h n

/-- Loop of `generate_matching_hashes` over the remaining hashes, with the
dictionary built so far and the current block number `blknum`. -/
def ghmAux : List (α × List Nat) → List α → Nat → List (α × List Nat)
  | m, [], _ => m
  | m, h :: hs, blknum => ghmAux (insertHash m h blknum) hs (blknum + 1)

/-- `generate_matching_hashes`: dictionary from each MD5 hash to the list
of block numbers with that hash, keys in first-occurrence order. -/
def generate_matching_hashes (md5_hashes : List α) : List (α × List Nat) :=
  ghmAux [] md5_hashes 0

/-- `eliminate_non_duplicates`: delete the items whose block-number list
has fewer than 2 or more than 4 members, keeping the rest in order. -/
def eliminate_non_duplicates : List (α × List Nat) → List (α × List Nat)
  | [] => []
  | (k, v) :: rest =>
    if v.length < 2 ∨ 4 < v.length then eliminate_non_duplicates rest
    else (k, v) :: eliminate_non_duplicates rest

/-- Record in the offset dictionary that block `b` has a partner at
distance `o`: append `b` to the entry for `o`, or append a new entry. -/
def addOffset : List (Int × List Nat) → Int → Nat → List (Int × List Nat)
  | [], o, b => [(o, [b])]
  | (k, v) :: rest, o, b =>
    if k = o then (k, v ++ [b]) :: rest else (k, v) :: addOffset rest o b

/-- The `while len(blknums_copy) >= 2` loop of `compute_offset_blocks`:
for every pair of positions in `blknums` record the offset between them,
keyed on the second minus the first, with the first as the anchor. -/
def pairsAux : List (Int × List Nat) → List Nat → List (Int × List Nat)
  | ob, [] => ob
  | ob, fst :: rest =>
    pairsAux (rest.foldl (fun acc (snd : Nat) => addOffset acc ((snd : Int) - (fst : Int)) fst) ob) rest

/-- `compute_offset_blocks`: bucket the "first of pair" block numbers by
the offset to their partner, then sort each bucket ascending. -/
def compute_offset_blocks (matching_hashes : List (α × List Nat)) : List (Int × List Nat) :=
  ((matching_hashes.foldl (fun acc kv => pairsAux acc kv.2) []).map
    (fun kv => (kv.1, kv.2.insertionSort (· ≤ ·))))

/-- Subscripting of the fingerprint sequence by a (possibly negative)
integer index.  All pipeline accesses are at non-negative, in-bounds
indices (proved below), where this agrees with the source. -/
def hashAt (md5_hashes : List α) (i : Int) : Option α :=
  if 0 ≤ i then md5_hashes[i.toNat]? else none

/-- `find_start_matching_block`: from `start`, walk backwards while the
block before still has the same hash as its partner at `offset`. -/
def find_start_matching_block : Nat → Int → List α → Nat
  | 0, _, _ => 0
  | t + 1, offset, md5_hashes =>
    if hashAt md5_hashes (t : Int) ≠ hashAt md5_hashes ((t : Int) + offset) then t + 1
    else find_start_matching_block t offset md5_hashes

/-- Fuel-indexed loop of `find_stop_matching_block`; the fuel passed by
`find_stop_matching_block` is exactly the number of remaining iterations,
so the fuel never runs out while the loop guard still holds. -/
def find_stop_aux (md5_hashes : List α) (offset : Int) : Nat → Nat → Nat
  | 0, stop => stop
  | fuel + 1, stop =>
    if (stop : Int) + offset < (md5_hashes.length : Int) then
      if hashAt md5_hashes (stop : Int) ≠ hashAt md5_hashes ((stop : Int) + offset) then stop
      else find_stop_aux md5_hashes offset fuel (stop + 1)
    else stop

/-- `find_stop_matching_block`: from `stop`, walk forwards while in bounds
and the block still has the same hash as its partner at `offset`. -/
def find_stop_matching_block (stop : Nat) (offset : Int) (md5_hashes : List α) : Nat :=
  find_stop_aux md5_hashes offset ((md5_hashes.length : Int) - offset - (stop : Int)).toNat stop

/-- Comparison used by `candidate_ranges.sort(key=lambda c: c.rank,
reverse=True)`: descending rank. -/
def rank_ge (a b : Candidate) : Prop := b.rank ≤ a.rank

instance : DecidableRel rank_ge := fun a b => inferInstanceAs (Decidable (b.rank ≤ a.rank))

instance : IsTotal Candidate rank_ge := ⟨fun a b => le_total b.rank a.rank⟩

instance : IsTrans Candidate rank_ge := ⟨fun _ _ _ h1 h2 => le_trans h2 h1⟩

/-- Body of the `for offset, blocks in offset_blocks.items()` loop of
`compute_candidate_ranges`: pick the median anchor, expand backwards and
forwards, and score the resulting range. -/
def mkCandidate (offset : Int) (blocks : List Nat) (md5_hashes : List α) : Candidate :=
  let median_index := blocks.length / 2
  let anchor := blocks.getD median_index 0
  let start_block := find_start_matching_block anchor offset md5_hashes
  let stop_block := find_stop_matching_block anchor offset md5_hashes
  let matching_size : Int := (stop_block : Int) - (start_block : Int)
  ⟨offset, start_block, stop_block, md5_hashes.length, Rat.divInt matching_size offset⟩

/-- The candidate list of `compute_candidate_ranges` in dictionary
iteration order, before sorting. -/
def expand_ranges (offset_blocks : List (Int × List Nat)) (md5_hashes : List α) : List Candidate :=
  offset_blocks.map (fun kv => mkCandidate kv.1 kv.2 md5_hashes)

/-- `compute_candidate_ranges`: one candidate per offset, sorted by
descending rank (stable). -/
def compute_candidate_ranges (offset_blocks : List (Int × List Nat)) (md5_hashes : List α) :
    List Candidate :=
  (expand_ranges offset_blocks md5_hashes).insertionSort rank_ge

/-- `candidate_is_full_range`: the matching range covers the offset, give
or take one block. -/
def candidate_is_full_range (c : Candidate) : Bool :=
  decide ((c.stop_block : Int) - (c.start_block : Int) + 1 ≥ c.offset)

/-- `candidate_range_is_large_enough`: the matching range spans more than
2 blocks. -/
def candidate_range_is_large_enough (c : Candidate) : Bool :=
  decide ((c.stop_block : Int) - (c.start_block : Int) > 2)

/-- `find_overlap_from_hashes`: the full pipeline (the optional
`--dump-hashes` step only writes a file and does not affect the result). -/
def find_overlap_from_hashes (md5_hashes : List α) : List Candidate :=
  let matching_hashes := generate_matching_hashes md5_hashes
  let filtered := eliminate_non_duplicates matching_hashes
  let offset_blocks := compute_offset_blocks filtered
  let candidate_ranges := compute_candidate_ranges offset_blocks md5_hashes
  (candidate_ranges.filter candidate_is_full_range).filter candidate_range_is_large_enough

/-- Dictionary lookup `matching_hashes[h]`, as used by `dump_hashes`. -/
def lookupHash : List (α × List Nat) → α → List Nat
  | [], _ => []
  | (k, v) :: rest, h => if k = h then v else lookupHash rest h

/-- The substitution `dump_hashes` writes: each hash is replaced by
`matching_hashes[md5_hash][0]`, the first block number with that hash. -/
def substitute_hashes (md5_hashes : List α) : List Nat :=
  md5_hashes.map (fun h => (lookupHash (generate_matching_hashes md5_hashes) h).getD 0 0)

end FindOverlap

namespace FindOverlap

variable {α : Type*} [DecidableEq α] {β : Type*} [DecidableEq β]

/-! ### Properties of the range-expansion walks -/

theorem find_start_le (s : Nat) (o : Int) (hs : List α) :
    find_start_matching_block s o hs ≤ s := by
  induction s with
  | zero => simp [find_start_matching_block]
  | succ t ih =>
    simp only [find_start_matching_block]
    split
    · exact le_refl _
    · exact le_trans ih (Nat.le_succ t)

theorem find_start_matches (s : Nat) (o : Int) (hs : List α) :
    ∀ i, find_start_matching_block s o hs ≤ i → i < s →
      hashAt hs (i : Int) = hashAt hs ((i : Int) + o) := by
  induction s with
  | zero => intro i _ h; omega
  | succ t ih =>
    intro i hfi his
    simp only [find_start_matching_block] at hfi
    by_cases hm : hashAt hs (t : Int) ≠ hashAt hs ((t : Int) + o)
    · rw [if_pos hm] at hfi; omega
    · rw [if_neg hm] at hfi
      push_neg at hm
      rcases Nat.lt_succ_iff_lt_or_eq.mp his with h | rfl
      · exact ih i hfi h
      · exact hm

theorem find_start_eq_of (s : Nat) (o : Int) (hs : List α) (a : Nat) (has : a ≤ s)
    (hmatch : ∀ i, a ≤ i → i < s → hashAt hs (i : Int) = hashAt hs ((i : Int) + o))
    (hedge : a = 0 ∨ hashAt hs ((a : Int) - 1) ≠ hashAt hs (((a : Int) - 1) + o)) :
    find_start_matching_block s o hs = a := by
  induction s with
  | zero => simp only [find_start_matching_block]; omega
  | succ t ih =>
    simp only [find_start_matching_block]
    by_cases hat : a ≤ t
    · have hmt : hashAt hs (t : Int) = hashAt hs ((t : Int) + o) :=
        hmatch t hat (Nat.lt_succ_self t)
      rw [if_neg (fun hn => hn hmt)]
      exact ih hat (fun i hai hit => hmatch i hai (Nat.lt_succ_of_lt hit))
    · have hae : a = t + 1 := by omega
      subst hae
      rcases hedge with h0 | hne
      · omega
      · have hc : ((t + 1 : Nat) : Int) - 1 = (t : Int) := by push_cast; ring
        rw [hc] at hne
        rw [if_pos hne]

theorem find_stop_aux_ge (hs : List α) (o : Int) :
    ∀ fuel s, s ≤ find_stop_aux hs o fuel s := by
  intro fuel
  induction fuel with
  | zero => intro s; simp [find_stop_aux]
  | succ fuel ih =>
    intro s
    simp only [find_stop_aux]
    split
    · split
      · exact le_refl _
      · exact le_trans (Nat.le_succ s) (ih (s + 1))
    · exact le_refl _

theorem find_stop_aux_matches (hs : List α) (o : Int) :
    ∀ fuel s i, s ≤ i → i < find_stop_aux hs o fuel s →
      hashAt hs (i : Int) = hashAt hs ((i : Int) + o) := by
  intro fuel
  induction fuel with
  | zero => intro s i hsi hlt; simp only [find_stop_aux] at hlt; omega
  | succ fuel ih =>
    intro s i hsi hlt
    simp only [find_stop_aux] at hlt
    by_cases hg : (s : Int) + o < (hs.length : Int)
    · rw [if_pos hg] at hlt
      by_cases hm : hashAt hs (s : Int) ≠ hashAt hs ((s : Int) + o)
      · rw [if_pos hm] at hlt; omega
      · rw [if_neg hm] at hlt
        push_neg at hm
        rcases Nat.eq_or_lt_of_le hsi with rfl | h
        · exact hm
        · exact ih (s + 1) i h hlt
    · rw [if_neg hg] at hlt; omega

theorem find_stop_aux_bound (hs : List α) (o : Int) :
    ∀ (fuel s : Nat), (s : Int) + o ≤ (hs.length : Int) →
      (find_stop_aux hs o fuel s : Int) + o ≤ (hs.length : Int) := by
  intro fuel
  induction fuel with
  | zero => intro s h; simpa [find_stop_aux] using h
  | succ fuel ih =>
    intro s h
    simp only [find_stop_aux]
    split
    · split
      · exact h
      · exact ih (s + 1) (by push_cast; omega)
    · exact h

theorem find_stop_aux_eq_of (hs : List α) (o : Int) :
    ∀ (k fuel s : Nat), k ≤ fuel →
      (∀ i, s ≤ i → i < s + k → hashAt hs (i : Int) = hashAt hs ((i : Int) + o)) →
      ((s + k : Nat) : Int) + o ≤ (hs.length : Int) →
      (((s + k : Nat) : Int) + o = (hs.length : Int) ∨
        hashAt hs ((s + k : Nat) : Int) ≠ hashAt hs (((s + k : Nat) : Int) + o)) →
      find_stop_aux hs o fuel s = s + k := by
  intro k
  induction k with
  | zero =>
    intro fuel s _ _ hbound hstop
    cases fuel with
    | zero => simp [find_stop_aux]
    | succ fuel =>
      simp only [find_stop_aux]
      by_cases hg : (s : Int) + o < (hs.length : Int)
      · rw [if_pos hg]
        rcases hstop with heq | hne
        · push_cast at heq; omega
        · have hne' : hashAt hs (s : Int) ≠ hashAt hs ((s : Int) + o) := by
            have hc : ((s + 0 : Nat) : Int) = (s : Int) := by push_cast; ring
            rwa [hc] at hne
          rw [if_pos hne']
          omega
      · rw [if_neg hg]; omega
  | succ k ih =>
    intro fuel s hkf hmatch hbound hstop
    cases fuel with
    | zero => omega
    | succ fuel =>
      simp only [find_stop_aux]
      have hg : (s : Int) + o < (hs.length : Int) := by push_cast at hbound ⊢; omega
      rw [if_pos hg]
      have hms : hashAt hs (s : Int) = hashAt hs ((s : Int) + o) :=
        hmatch s (le_refl s) (by omega)
      rw [if_neg (fun hn => hn hms)]
      have hcast : ((s + 1 + k : Nat) : Int) = ((s + (k + 1) : Nat) : Int) := by
        push_cast; ring
      have hrec := ih fuel (s + 1) (by omega)
        (fun i hi1 hi2 => hmatch i (by omega) (by omega))
        (by rw [hcast]; exact hbound)
        (by rw [hcast]; exact hstop)
      rw [hrec]
      omega

theorem find_stop_eq_of (s : Nat) (o : Int) (hs : List α) (b : Nat) (hsb : s ≤ b)
    (hmatch : ∀ i, s ≤ i → i < b → hashAt hs (i : Int) = hashAt hs ((i : Int) + o))
    (hbound : (b : Int) + o ≤ (hs.length : Int))
    (hstop : (b : Int) + o = (hs.length : Int) ∨
      hashAt hs (b : Int) ≠ hashAt hs ((b : Int) + o)) :
    find_stop_matching_block s o hs = b := by
  obtain ⟨k, rfl⟩ : ∃ k, b = s + k := ⟨b - s, by omega⟩
  unfold find_stop_matching_block
  exact find_stop_aux_eq_of hs o k _ s
    (by push_cast at hbound; omega)
    (fun i h1 h2 => hmatch i h1 h2)
    hbound hstop

theorem find_stop_le_of_bound (s : Nat) (o : Int) (hs : List α)
    (h : (s : Int) + o ≤ (hs.length : Int)) :
    (find_stop_matching_block s o hs : Int) + o ≤ (hs.length : Int) :=
  find_stop_aux_bound hs o _ s h

theorem find_stop_ge (s : Nat) (o : Int) (hs : List α) :
    s ≤ find_stop_matching_block s o hs :=
  find_stop_aux_ge hs o _ s

theorem find_stop_matches (s : Nat) (o : Int) (hs : List α) :
    ∀ i, s ≤ i → i < find_stop_matching_block s o hs →
      hashAt hs (i : Int) = hashAt hs ((i : Int) + o) :=
  find_stop_aux_matches hs o _ s

/-! ### Canonical description of the match groups -/

/-- Indices whose hash does not occur earlier in the sequence: the keys of
`generate_matching_hashes`, in order of first occurrence. -/
def firstIdxs (hs : List α) : List Nat :=
  (List.range hs.length).filter (fun i => decide (∀ j, j < i → hs[j]? ≠ hs[i]?))

/-- Ascending list of all indices whose hash equals the hash at `i`. -/
def occIdxs (hs : List α) (i : Nat) : List Nat :=
  (List.range hs.length).filter (fun j => decide (hs[j]? = hs[i]?))

/-- Canonical form of the dictionary built by `generate_matching_hashes`:
one entry per first occurrence, holding all indices sharing its hash. -/
def canonGroups [Inhabited α] (hs : List α) : List (α × List Nat) :=
  (firstIdxs hs).map (fun i => (hs.getD i default, occIdxs hs i))

theorem mem_firstIdxs {hs : List α} {i : Nat} :
    i ∈ firstIdxs hs ↔ i < hs.length ∧ ∀ j, j < i → hs[j]? ≠ hs[i]? := by
  simp [firstIdxs, List.mem_filter, List.mem_range]

theorem mem_occIdxs {hs : List α} {i j : Nat} :
    j ∈ occIdxs hs i ↔ j < hs.length ∧ hs[j]? = hs[i]? := by
  simp [occIdxs, List.mem_filter, List.mem_range]

theorem firstIdxs_nodup (hs : List α) : (firstIdxs hs).Nodup :=
  (List.nodup_range _).filter _

theorem firstIdxs_inj {hs : List α} {i i' : Nat} (hi : i ∈ firstIdxs hs)
    (hi' : i' ∈ firstIdxs hs) (heq : hs[i]? = hs[i']?) : i = i' := by
  rcases mem_firstIdxs.mp hi with ⟨_, hfirst⟩
  rcases mem_firstIdxs.mp hi' with ⟨_, hfirst'⟩
  rcases lt_trichotomy i i' with hlt | hlt | hlt
  · exact absurd heq (hfirst' i hlt)
  · exact hlt
  · exact absurd heq.symm (hfirst i' hlt)

theorem canon_key [Inhabited α] {hs : List α} {i : Nat} (hi : i < hs.length) :
    hs[i]? = some (hs.getD i default) := by
  rw [List.getElem?_eq_getElem hi, List.getD_eq_getElem?_getD, List.getElem?_eq_getElem hi]
  rfl

theorem getD_append_lt [Inhabited α] {hs : List α} (h : α) {i : Nat} (hi : i < hs.length) :
    (hs ++ [h]).getD i default = hs.getD i default := by
  rw [List.getD_eq_getElem?_getD, List.getD_eq_getElem?_getD, List.getElem?_append_left hi]

theorem insertHash_of_forall_ne {m : List (α × List Nat)} {h : α} (n : Nat)
    (hne : ∀ e ∈ m, e.1 ≠ h) : insertHash m h n = m ++ [(h, [n])] := by
  induction m with
  | nil => rfl
  | cons e rest ih =>
    obtain ⟨k, v⟩ := e
    simp only [insertHash]
    rw [if_neg (hne (k, v) (List.mem_cons_self _ _)),
      ih (fun e he => hne e (List.mem_cons_of_mem _ he))]
    rfl

theorem insertHash_append (m₁ m₂ : List (α × List Nat)) (h : α) (v : List Nat) (n : Nat)
    (hne : ∀ e ∈ m₁, e.1 ≠ h) :
    insertHash (m₁ ++ (h, v) :: m₂) h n = m₁ ++ (h, v ++ [n]) :: m₂ := by
  induction m₁ with
  | nil => simp [insertHash]
  | cons e rest ih =>
    obtain ⟨k, w⟩ := e
    simp only [List.cons_append, insertHash]
    rw [if_neg (hne (k, w) (List.mem_cons_self _ _))]
    congr 1
    exact ih (fun e he => hne e (List.mem_cons_of_mem _ he))

theorem firstIdxs_append (hs : List α) (h : α) :
    firstIdxs (hs ++ [h]) = firstIdxs hs ++ (if h ∈ hs then [] else [hs.length]) := by
  unfold firstIdxs
  have hlen : (hs ++ [h]).length = hs.length + 1 := by simp
  rw [hlen, List.range_succ, List.filter_append]
  congr 1
  · apply List.filter_congr
    intro i hi
    rw [List.mem_range] at hi
    apply decide_eq_decide.mpr
    apply forall_congr'
    intro j
    apply imp_congr_right
    intro hj
    rw [List.getElem?_append_left (by omega : j < hs.length),
      List.getElem?_append_left (by omega : i < hs.length)]
  · have hlast : (hs ++ [h])[hs.length]? = some h := List.getElem?_concat_length hs h
    by_cases hmem : h ∈ hs
    · rw [if_pos hmem]
      obtain ⟨j, hj⟩ := List.mem_iff_getElem?.mp hmem
      have hjlt : j < hs.length := by
        rcases List.getElem?_eq_some_iff.mp hj with ⟨hlt, _⟩
        exact hlt
      have hfail : ¬ (∀ j', j' < hs.length → (hs ++ [h])[j']? ≠ (hs ++ [h])[hs.length]?) := by
        intro hall
        exact hall j hjlt (by rw [List.getElem?_append_left hjlt, hlast, hj])
      simp only [List.filter_cons, List.filter_nil, decide_eq_true_eq]
      rw [if_neg hfail]
    · rw [if_neg hmem]
      have hok : ∀ j', j' < hs.length → (hs ++ [h])[j']? ≠ (hs ++ [h])[hs.length]? := by
        intro j' hj' hcontra
        rw [List.getElem?_append_left hj', hlast] at hcontra
        exact hmem (List.mem_iff_getElem?.mpr ⟨j', hcontra⟩)
      simp only [List.filter_cons, List.filter_nil, decide_eq_true_eq]
      rw [if_pos hok]

theorem occIdxs_append_lt (hs : List α) (h : α) {i : Nat} (hi : i < hs.length) :
    occIdxs (hs ++ [h]) i =
      occIdxs hs i ++ (if hs[i]? = some h then [hs.length] else []) := by
  unfold occIdxs
  have hlen : (hs ++ [h]).length = hs.length + 1 := by simp
  rw [hlen, List.range_succ, List.filter_append]
  have hieq : (hs ++ [h])[i]? = hs[i]? := List.getElem?_append_left hi
  congr 1
  · apply List.filter_congr
    intro j hj
    rw [List.mem_range] at hj
    apply decide_eq_decide.mpr
    rw [List.getElem?_append_left (by omega : j < hs.length), hieq]
  · have hlast : (hs ++ [h])[hs.length]? = some h := List.getElem?_concat_length hs h
    by_cases hcase : hs[i]? = some h
    · have heq2 : (hs ++ [h])[hs.length]? = (hs ++ [h])[i]? := by rw [hlast, hieq, hcase]
      simp only [List.filter_cons, List.filter_nil, decide_eq_true_eq]
      rw [if_pos heq2, if_pos hcase]
    · have hne2 : ¬ (hs ++ [h])[hs.length]? = (hs ++ [h])[i]? := by
        rw [hlast, hieq]
        exact fun hc => hcase hc.symm
      simp only [List.filter_cons, List.filter_nil, decide_eq_true_eq]
      rw [if_neg hne2, if_neg hcase]

theorem occIdxs_append_self {hs : List α} {h : α} (hmem : h ∉ hs) :
    occIdxs (hs ++ [h]) hs.length = [hs.length] := by
  unfold occIdxs
  have hlen : (hs ++ [h]).length = hs.length + 1 := by simp
  rw [hlen, List.range_succ, List.filter_append]
  have hlast : (hs ++ [h])[hs.length]? = some h := List.getElem?_concat_length hs h
  have h1 : (List.range hs.length).filter
      (fun j => decide ((hs ++ [h])[j]? = (hs ++ [h])[hs.length]?)) = [] := by
    apply List.filter_eq_nil_iff.mpr
    intro j hj
    rw [List.mem_range] at hj
    simp only [decide_eq_true_eq]
    rw [List.getElem?_append_left hj, hlast]
    exact fun hc => hmem (List.mem_iff_getElem?.mpr ⟨j, hc⟩)
  rw [h1]
  simp [hlast]


theorem insertHash_canon [Inhabited α] (hs : List α) (h : α) :
    insertHash (canonGroups hs) h hs.length = canonGroups (hs ++ [h]) := by
  by_cases hmem : h ∈ hs
  · -- the hash already occurs: the new block number joins its group
    have hex : ∃ n, hs[n]? = some h := List.mem_iff_getElem?.mp hmem
    have hspec : hs[Nat.find hex]? = some h := Nat.find_spec hex
    set i0 := Nat.find hex with hi0def
    have hmin : ∀ j, j < i0 → hs[j]? ≠ some h := fun j hj => Nat.find_min hex hj
    have hi0lt : i0 < hs.length := by
      rcases List.getElem?_eq_some_iff.mp hspec with ⟨hlt, _⟩
      exact hlt
    have hi0first : i0 ∈ firstIdxs hs :=
      mem_firstIdxs.mpr ⟨hi0lt, fun j hj => by rw [hspec]; exact hmin j hj⟩
    obtain ⟨F₁, F₂, hsplit⟩ := List.append_of_mem hi0first
    have hnodup : (F₁ ++ i0 :: F₂).Nodup := hsplit ▸ firstIdxs_nodup hs
    have hnotF₁ : i0 ∉ F₁ := by
      rcases List.nodup_append.mp hnodup with ⟨_, _, hdisj⟩
      exact fun hin => hdisj hin (List.mem_cons_self _ _)
    have hnotF₂ : i0 ∉ F₂ := by
      rcases List.nodup_append.mp hnodup with ⟨_, hcons, _⟩
      exact (List.nodup_cons.mp hcons).1
    have hmemF : ∀ i, i ∈ F₁ ∨ i ∈ F₂ → i ∈ firstIdxs hs := by
      intro i hi
      rw [hsplit]
      rcases hi with hi | hi
      · exact List.mem_append_left _ hi
      · exact List.mem_append_right _ (List.mem_cons_of_mem _ hi)
    have hlt : ∀ i, i ∈ F₁ ∨ i ∈ F₂ → i < hs.length := by
      intro i hi
      exact (mem_firstIdxs.mp (hmemF i hi)).1
    have hnoth : ∀ i, i ∈ F₁ ∨ i ∈ F₂ → ¬ hs[i]? = some h := by
      intro i hi hcontra
      have : i = i0 := firstIdxs_inj (hmemF i hi) hi0first (by rw [hcontra, hspec])
      subst this
      rcases hi with hi | hi
      · exact hnotF₁ hi
      · exact hnotF₂ hi
    have hkey0 : hs.getD i0 default = h := by
      have := canon_key hi0lt
      rw [hspec] at this
      exact (Option.some.inj this).symm
    have hmapne : ∀ e ∈ F₁.map (fun i => (hs.getD i default, occIdxs hs i)), e.1 ≠ h := by
      intro e he
      rcases List.mem_map.mp he with ⟨i, hi, rfl⟩
      intro hcontra
      have hck : hs.getD i default = h := hcontra
      exact hnoth i (Or.inl hi)
        (by rw [canon_key (hlt i (Or.inl hi)), hck])
    have hlhs : insertHash (canonGroups hs) h hs.length =
        F₁.map (fun i => (hs.getD i default, occIdxs hs i)) ++
          (h, occIdxs hs i0 ++ [hs.length]) ::
            F₂.map (fun i => (hs.getD i default, occIdxs hs i)) := by
      rw [canonGroups, hsplit, List.map_append, List.map_cons, hkey0]
      exact insertHash_append _ _ h _ _ hmapne
    rw [hlhs, canonGroups, firstIdxs_append, if_pos hmem, List.append_nil, hsplit,
      List.map_append, List.map_cons]
    congr 1
    · apply List.map_congr_left
      intro i hi
      rw [getD_append_lt h (hlt i (Or.inl hi)),
        occIdxs_append_lt hs h (hlt i (Or.inl hi)), if_neg (hnoth i (Or.inl hi)),
        List.append_nil]
    · congr 1
      · rw [getD_append_lt h hi0lt, occIdxs_append_lt hs h hi0lt, if_pos hspec, hkey0]
      · apply List.map_congr_left
        intro i hi
        rw [getD_append_lt h (hlt i (Or.inr hi)),
          occIdxs_append_lt hs h (hlt i (Or.inr hi)), if_neg (hnoth i (Or.inr hi)),
          List.append_nil]
  · -- a new hash: a fresh singleton entry is appended
    have hkeys : ∀ e ∈ canonGroups hs, e.1 ≠ h := by
      intro e he
      rcases List.mem_map.mp he with ⟨i, hi, rfl⟩
      intro hcontra
      have hck : hs.getD i default = h := hcontra
      have hilt : i < hs.length := (mem_firstIdxs.mp hi).1
      exact hmem (List.mem_iff_getElem?.mpr ⟨i, by rw [canon_key hilt, hck]⟩)
    have hkeynew : (hs ++ [h]).getD hs.length default = h := by
      rw [List.getD_eq_getElem?_getD, List.getElem?_concat_length]
      rfl
    have hrhs : canonGroups (hs ++ [h]) = canonGroups hs ++ [(h, [hs.length])] := by
      rw [canonGroups, firstIdxs_append, if_neg hmem, List.map_append, List.map_cons,
        List.map_nil, canonGroups]
      congr 1
      · apply List.map_congr_left
        intro i hi
        have hilt : i < hs.length := (mem_firstIdxs.mp hi).1
        have hino : ¬ hs[i]? = some h := by
          intro hcontra
          exact hmem (List.mem_iff_getElem?.mpr ⟨i, hcontra⟩)
        rw [getD_append_lt h hilt, occIdxs_append_lt hs h hilt, if_neg hino, List.append_nil]
      · rw [hkeynew, occIdxs_append_self hmem]
    rw [insertHash_of_forall_ne _ hkeys, hrhs]


theorem ghmAux_canon [Inhabited α] (hs : List α) :
    ∀ hs0 : List α, ghmAux (canonGroups hs0) hs hs0.length = canonGroups (hs0 ++ hs) := by
  induction hs with
  | nil => intro hs0; simp [ghmAux]
  | cons h rest ih =>
    intro hs0
    simp only [ghmAux]
    rw [insertHash_canon]
    have hlen : hs0.length + 1 = (hs0 ++ [h]).length := by simp
    rw [hlen, ih (hs0 ++ [h]), List.append_assoc, List.singleton_append]

theorem generate_matching_hashes_eq_canon [Inhabited α] (hs : List α) :
    generate_matching_hashes hs = canonGroups hs := by
  have h0 : canonGroups ([] : List α) = [] := by
    simp [canonGroups, firstIdxs]
  have := ghmAux_canon hs ([] : List α)
  rw [h0] at this
  simpa [generate_matching_hashes] using this


/-! ### The duplicate filter -/

theorem eliminate_eq_filter (m : List (α × List Nat)) :
    eliminate_non_duplicates m =
      m.filter (fun kv => decide (2 ≤ kv.2.length ∧ kv.2.length ≤ 4)) := by
  induction m with
  | nil => rfl
  | cons e rest ih =>
    obtain ⟨k, v⟩ := e
    simp only [eliminate_non_duplicates, List.filter_cons]
    by_cases hc : v.length < 2 ∨ 4 < v.length
    · rw [if_pos hc, ih]
      have hno : ¬ (2 ≤ v.length ∧ v.length ≤ 4) := by omega
      simp [hno]
    · rw [if_neg hc, ih]
      have hyes : 2 ≤ v.length ∧ v.length ≤ 4 := by omega
      simp [hyes]

theorem mem_eliminate {m : List (α × List Nat)} {kv : α × List Nat} :
    kv ∈ eliminate_non_duplicates m ↔ kv ∈ m ∧ 2 ≤ kv.2.length ∧ kv.2.length ≤ 4 := by
  rw [eliminate_eq_filter]
  simp [List.mem_filter]

theorem eliminate_sublist (m : List (α × List Nat)) :
    (eliminate_non_duplicates m).Sublist m := by
  rw [eliminate_eq_filter]
  exact List.filter_sublist m

theorem count_eq_length_matchIdxs (hs : List α) (a : α) :
    ((List.range hs.length).filter (fun j => decide (hs[j]? = some a))).length = hs.count a := by
  induction hs using List.reverseRecOn with
  | nil => simp
  | append_singleton l x ih =>
    have hlen : (l ++ [x]).length = l.length + 1 := by simp
    rw [hlen, List.range_succ, List.filter_append, List.length_append]
    have h1 : (List.range l.length).filter (fun j => decide ((l ++ [x])[j]? = some a)) =
        (List.range l.length).filter (fun j => decide (l[j]? = some a)) := by
      apply List.filter_congr
      intro j hj
      rw [List.mem_range] at hj
      rw [List.getElem?_append_left hj]
    rw [h1, ih, List.count_append]
    have hlast : (l ++ [x])[l.length]? = some x := List.getElem?_concat_length l x
    by_cases hxa : x = a
    · subst hxa
      simp [hlast]
    · have hno : ¬ (l ++ [x])[l.length]? = some a := by
        rw [hlast]
        exact fun hc => hxa (Option.some.inj hc)
      have hfilter : List.filter (fun j => decide ((l ++ [x])[j]? = some a)) [l.length] = [] := by
        simp only [List.filter_cons, List.filter_nil, decide_eq_true_eq]
        rw [if_neg hno]
      have hc0 : List.count a [x] = 0 := by
        rw [List.count_singleton]
        simp only [beq_iff_eq, ite_eq_right_iff]
        intro hc
        exact absurd hc hxa
      rw [hfilter, hc0]
      simp

theorem length_occIdxs [Inhabited α] {hs : List α} {i : Nat} (hi : i < hs.length) :
    (occIdxs hs i).length = hs.count (hs.getD i default) := by
  unfold occIdxs
  rw [← count_eq_length_matchIdxs hs (hs.getD i default)]
  congr 1
  apply List.filter_congr
  intro j hj
  rw [canon_key hi]

theorem mem_self_occIdxs {hs : List α} {i : Nat} (hi : i < hs.length) :
    i ∈ occIdxs hs i := mem_occIdxs.mpr ⟨hi, rfl⟩

/-! ### The dump-file substitution -/

theorem lookupHash_append (m₁ m₂ : List (α × List Nat)) (h : α) (v : List Nat)
    (hne : ∀ e ∈ m₁, e.1 ≠ h) :
    lookupHash (m₁ ++ (h, v) :: m₂) h = v := by
  induction m₁ with
  | nil => simp [lookupHash]
  | cons e rest ih =>
    obtain ⟨k, w⟩ := e
    simp only [List.cons_append, lookupHash]
    rw [if_neg (hne (k, w) (List.mem_cons_self _ _))]
    exact ih (fun e he => hne e (List.mem_cons_of_mem _ he))

theorem lookupHash_canon [Inhabited α] {hs : List α} {h : α} (hmem : h ∈ hs) :
    ∃ i0, i0 ∈ firstIdxs hs ∧ hs[i0]? = some h ∧
      lookupHash (canonGroups hs) h = occIdxs hs i0 := by
  have hex : ∃ n, hs[n]? = some h := List.mem_iff_getElem?.mp hmem
  have hspec : hs[Nat.find hex]? = some h := Nat.find_spec hex
  set i0 := Nat.find hex with hi0def
  have hmin : ∀ j, j < i0 → hs[j]? ≠ some h := fun j hj => Nat.find_min hex hj
  have hi0lt : i0 < hs.length := by
    rcases List.getElem?_eq_some_iff.mp hspec with ⟨hlt, _⟩
    exact hlt
  have hi0first : i0 ∈ firstIdxs hs :=
    mem_firstIdxs.mpr ⟨hi0lt, fun j hj => by rw [hspec]; exact hmin j hj⟩
  refine ⟨i0, hi0first, hspec, ?_⟩
  obtain ⟨F₁, F₂, hsplit⟩ := List.append_of_mem hi0first
  have hnodup : (F₁ ++ i0 :: F₂).Nodup := hsplit ▸ firstIdxs_nodup hs
  have hnotF₁ : i0 ∉ F₁ := by
    rcases List.nodup_append.mp hnodup with ⟨_, _, hdisj⟩
    exact fun hin => hdisj hin (List.mem_cons_self _ _)
  have hkey0 : hs.getD i0 default = h := by
    have := canon_key hi0lt
    rw [hspec] at this
    exact (Option.some.inj this).symm
  have hmapne : ∀ e ∈ F₁.map (fun i => (hs.getD i default, occIdxs hs i)), e.1 ≠ h := by
    intro e he
    rcases List.mem_map.mp he with ⟨i, hi, rfl⟩
    intro hcontra
    have hck : hs.getD i default = h := hcontra
    have hiF : i ∈ firstIdxs hs := by
      rw [hsplit]
      exact List.mem_append_left _ hi
    have hilt : i < hs.length := (mem_firstIdxs.mp hiF).1
    have : i = i0 := firstIdxs_inj hiF hi0first (by rw [canon_key hilt, hck, hspec])
    exact hnotF₁ (this ▸ hi)
  rw [canonGroups, hsplit, List.map_append, List.map_cons, hkey0]
  exact lookupHash_append _ _ h _ hmapne

theorem getD_zero_mem {l : List Nat} (hne : l ≠ []) : l.getD 0 0 ∈ l := by
  cases l with
  | nil => exact absurd rfl hne
  | cons x xs =>
    rw [List.getD_cons_zero]
    exact List.mem_cons_self _ _

theorem substitute_hashes_getElem (hs : List α) {i : Nat} (hi : i < hs.length) :
    ∃ f, (substitute_hashes hs)[i]? = some f ∧ hs[f]? = hs[i]? := by
  have : Inhabited α := ⟨hs.get ⟨i, hi⟩⟩
  have hsome : hs[i]? = some (hs.getD i default) := canon_key hi
  have hmem : hs.getD i default ∈ hs := List.mem_iff_getElem?.mpr ⟨i, hsome⟩
  obtain ⟨i0, hi0first, hi0spec, hlook⟩ := lookupHash_canon hmem
  have hi0lt : i0 < hs.length := (mem_firstIdxs.mp hi0first).1
  refine ⟨(occIdxs hs i0).getD 0 0, ?_, ?_⟩
  · unfold substitute_hashes
    rw [List.getElem?_map, hsome]
    simp only [Option.map_some']
    rw [generate_matching_hashes_eq_canon, hlook]
  · have hfmem : (occIdxs hs i0).getD 0 0 ∈ occIdxs hs i0 :=
      getD_zero_mem (List.ne_nil_of_mem (mem_self_occIdxs hi0lt))
    have := (mem_occIdxs.mp hfmem).2
    rw [this, hi0spec, hsome]


/-! ### Where offset-bucket entries come from -/

/-- An (offset, anchor) pair is recorded in the bucket dictionary. -/
def Mem2 (o : Int) (a : Nat) (m : List (Int × List Nat)) : Prop :=
  ∃ v, (o, v) ∈ m ∧ a ∈ v

theorem mem2_nil {o : Int} {a : Nat} : ¬ Mem2 o a [] := by
  rintro ⟨v, hv, _⟩
  exact absurd hv (List.not_mem_nil _)

theorem mem2_addOffset {m : List (Int × List Nat)} {o : Int} {a : Nat} {o' : Int} {a' : Nat} :
    Mem2 o' a' (addOffset m o a) → Mem2 o' a' m ∨ (o' = o ∧ a' = a) := by
  induction m with
  | nil =>
    rintro ⟨v, hv, hav⟩
    simp only [addOffset, List.mem_singleton] at hv
    rcases Prod.mk.injEq .. ▸ hv with ⟨ho, hveq⟩
    right
    refine ⟨ho, ?_⟩
    rw [hveq] at hav
    simpa using hav
  | cons e rest ih =>
    obtain ⟨k, w⟩ := e
    intro hm
    by_cases hk : k = o
    · rw [addOffset, if_pos hk] at hm
      obtain ⟨v, hv, hav⟩ := hm
      rcases List.mem_cons.mp hv with heq | hv'
      · rcases Prod.mk.injEq .. ▸ heq with ⟨ho, hveq⟩
        rw [hveq] at hav
        rcases List.mem_append.mp hav with haw | hal
        · exact Or.inl ⟨w, by rw [ho]; exact List.mem_cons_self _ _, haw⟩
        · right
          exact ⟨ho.trans hk, by simpa using hal⟩
      · exact Or.inl ⟨v, List.mem_cons_of_mem _ hv', hav⟩
    · rw [addOffset, if_neg hk] at hm
      obtain ⟨v, hv, hav⟩ := hm
      rcases List.mem_cons.mp hv with heq | hv'
      · exact Or.inl ⟨v, heq ▸ List.mem_cons_self _ _, hav⟩
      · rcases ih ⟨v, hv', hav⟩ with h | h
        · obtain ⟨v₂, hv₂, hav₂⟩ := h
          exact Or.inl ⟨v₂, List.mem_cons_of_mem _ hv₂, hav₂⟩
        · exact Or.inr h
  
theorem addOffset_ne_nil {m : List (Int × List Nat)} {o : Int} {a : Nat}
    (hm : ∀ e ∈ m, e.2 ≠ []) : ∀ e ∈ addOffset m o a, e.2 ≠ [] := by
  induction m with
  | nil =>
    intro e he
    simp only [addOffset, List.mem_singleton] at he
    subst he
    simp
  | cons f rest ih =>
    obtain ⟨k, w⟩ := f
    intro e he
    by_cases hk : k = o
    · rw [addOffset, if_pos hk] at he
      rcases List.mem_cons.mp he with heq | hrest
      · subst heq
        simp
      · exact hm e (List.mem_cons_of_mem _ hrest)
    · rw [addOffset, if_neg hk] at he
      rcases List.mem_cons.mp he with heq | hrest
      · subst heq
        exact hm (k, w) (List.mem_cons_self _ _)
      · exact ih (fun e' he' => hm e' (List.mem_cons_of_mem _ he')) e hrest

theorem mem2_foldl_addOffset {l : List Nat} {fst : Nat} {o' : Int} {a' : Nat} :
    ∀ {m : List (Int × List Nat)},
      Mem2 o' a' (l.foldl (fun acc (snd : Nat) => addOffset acc ((snd : Int) - (fst : Int)) fst) m) →
      Mem2 o' a' m ∨ ∃ snd ∈ l, o' = (snd : Int) - (fst : Int) ∧ a' = fst := by
  induction l with
  | nil => intro m hm; exact Or.inl hm
  | cons x rest ih =>
    intro m hm
    rw [List.foldl_cons] at hm
    rcases ih hm with h | h
    · rcases mem2_addOffset h with h2 | h2
      · exact Or.inl h2
      · exact Or.inr ⟨x, List.mem_cons_self _ _, h2.1, h2.2⟩
    · obtain ⟨snd, hsnd, ho, ha⟩ := h
      exact Or.inr ⟨snd, List.mem_cons_of_mem _ hsnd, ho, ha⟩

theorem foldl_addOffset_ne_nil {l : List Nat} {fst : Nat} :
    ∀ {m : List (Int × List Nat)}, (∀ e ∈ m, e.2 ≠ []) →
      ∀ e ∈ l.foldl (fun acc (snd : Nat) => addOffset acc ((snd : Int) - (fst : Int)) fst) m, e.2 ≠ [] := by
  induction l with
  | nil => intro m hm; exact hm
  | cons x rest ih =>
    intro m hm
    rw [List.foldl_cons]
    exact ih (addOffset_ne_nil hm)

theorem mem2_pairsAux {o' : Int} {a' : Nat} :
    ∀ (l : List Nat) {m : List (Int × List Nat)},
      Mem2 o' a' (pairsAux m l) →
      Mem2 o' a' m ∨ ∃ b : Nat, [a', b].Sublist l ∧ o' = (b : Int) - (a' : Int) := by
  intro l
  induction l with
  | nil => intro m hm; exact Or.inl hm
  | cons fst rest ih =>
    intro m hm
    rw [pairsAux] at hm
    rcases ih hm with h | h
    · rcases mem2_foldl_addOffset h with h2 | h2
      · exact Or.inl h2
      · obtain ⟨snd, hsnd, ho, ha⟩ := h2
        subst ha
        refine Or.inr ⟨snd, ?_, ho⟩
        exact List.Sublist.cons₂ _ (List.singleton_sublist.mpr hsnd)
    · obtain ⟨b, hsub, ho⟩ := h
      exact Or.inr ⟨b, hsub.cons _, ho⟩

theorem pairsAux_ne_nil :
    ∀ (l : List Nat) {m : List (Int × List Nat)}, (∀ e ∈ m, e.2 ≠ []) →
      ∀ e ∈ pairsAux m l, e.2 ≠ [] := by
  intro l
  induction l with
  | nil => intro m hm; exact hm
  | cons fst rest ih =>
    intro m hm
    rw [pairsAux]
    exact ih (foldl_addOffset_ne_nil hm)

theorem mem2_groups_fold {o' : Int} {a' : Nat} :
    ∀ (m : List (α × List Nat)) {acc : List (Int × List Nat)},
      Mem2 o' a' (m.foldl (fun acc kv => pairsAux acc kv.2) acc) →
      Mem2 o' a' acc ∨ ∃ kv ∈ m, ∃ b : Nat, [a', b].Sublist kv.2 ∧ o' = (b : Int) - (a' : Int) := by
  intro m
  induction m with
  | nil => intro acc hm; exact Or.inl hm
  | cons kv rest ih =>
    intro acc hm
    rw [List.foldl_cons] at hm
    rcases ih hm with h | h
    · rcases mem2_pairsAux kv.2 h with h2 | h2
      · exact Or.inl h2
      · obtain ⟨b, hsub, ho⟩ := h2
        exact Or.inr ⟨kv, List.mem_cons_self _ _, b, hsub, ho⟩
    · obtain ⟨kv₂, hkv₂, b, hsub, ho⟩ := h
      exact Or.inr ⟨kv₂, List.mem_cons_of_mem _ hkv₂, b, hsub, ho⟩

theorem groups_fold_ne_nil :
    ∀ (m : List (α × List Nat)) {acc : List (Int × List Nat)}, (∀ e ∈ acc, e.2 ≠ []) →
      ∀ e ∈ m.foldl (fun acc kv => pairsAux acc kv.2) acc, e.2 ≠ [] := by
  intro m
  induction m with
  | nil => intro acc hacc; exact hacc
  | cons kv rest ih =>
    intro acc hacc
    rw [List.foldl_cons]
    exact ih (pairsAux_ne_nil kv.2 hacc)

theorem compute_offset_blocks_spec (m : List (α × List Nat)) :
    ∀ e ∈ compute_offset_blocks m, e.2 ≠ [] ∧
      ∀ a ∈ e.2, ∃ kv ∈ m, ∃ b : Nat, [a, b].Sublist kv.2 ∧ e.1 = (b : Int) - (a : Int) := by
  intro e he
  rw [compute_offset_blocks] at he
  rcases List.mem_map.mp he with ⟨e₀, he₀, rfl⟩
  constructor
  · have hne : e₀.2 ≠ [] := groups_fold_ne_nil m (by intro e' he'; cases he') e₀ he₀
    intro hcontra
    have hnil : e₀.2.insertionSort (· ≤ ·) = [] := hcontra
    have hperm := List.perm_insertionSort (fun x1 x2 => x1 ≤ x2 : Nat → Nat → Prop) e₀.2
    rw [hnil] at hperm
    exact hne hperm.symm.eq_nil
  · intro a ha
    have ha' : a ∈ e₀.2 := (List.mem_insertionSort _).mp ha
    have hm2 : Mem2 e₀.1 a (m.foldl (fun acc kv => pairsAux acc kv.2) []) := by
      exact ⟨e₀.2, by simpa using he₀, ha'⟩
    rcases mem2_groups_fold m hm2 with h | h
    · exact absurd h mem2_nil
    · exact h


/-! ### Anchor validity through the pipeline -/

theorem hashAt_natCast (hs : List α) (i : Nat) : hashAt hs (i : Int) = hs[i]? := by
  unfold hashAt
  rw [if_pos (Int.natCast_nonneg i)]
  simp

theorem hashAt_add_natCast (hs : List α) (i o : Nat) :
    hashAt hs ((i : Int) + (o : Int)) = hs[i + o]? := by
  rw [← Nat.cast_add, hashAt_natCast]

theorem pairwise_lt_occIdxs (hs : List α) (i : Nat) :
    List.Pairwise (· < ·) (occIdxs hs i) :=
  (List.pairwise_lt_range _).filter _

theorem gmh_group_props (hs : List α) :
    ∀ kv ∈ generate_matching_hashes hs,
      List.Pairwise (· < ·) kv.2 ∧ ∀ i ∈ kv.2, hs[i]? = some kv.1 := by
  cases hs with
  | nil =>
    intro kv hkv
    simp [generate_matching_hashes, ghmAux] at hkv
  | cons x xs =>
    haveI : Inhabited α := ⟨x⟩
    intro kv hkv
    rw [generate_matching_hashes_eq_canon] at hkv
    rcases List.mem_map.mp hkv with ⟨i, hi, rfl⟩
    refine ⟨pairwise_lt_occIdxs _ i, ?_⟩
    intro j hj
    have hjprop := mem_occIdxs.mp hj
    have hilt : i < (x :: xs).length := (mem_firstIdxs.mp hi).1
    rw [hjprop.2]
    exact canon_key hilt

theorem eliminate_gmh_group_props (hs : List α) :
    ∀ kv ∈ eliminate_non_duplicates (generate_matching_hashes hs),
      List.Pairwise (· < ·) kv.2 ∧ ∀ i ∈ kv.2, hs[i]? = some kv.1 := by
  intro kv hkv
  exact gmh_group_props hs kv ((eliminate_sublist _).mem hkv)

theorem offset_blocks_spec_of_groups (hs : List α) (m : List (α × List Nat))
    (hgrp : ∀ kv ∈ m, List.Pairwise (· < ·) kv.2 ∧ ∀ i ∈ kv.2, hs[i]? = some kv.1) :
    ∀ e ∈ compute_offset_blocks m, e.2 ≠ [] ∧ 0 < e.1 ∧
      ∀ a ∈ e.2, e.1 = ((a + e.1.toNat : Nat) : Int) - (a : Int) ∧
        hs[a]? = hs[a + e.1.toNat]? ∧ a + e.1.toNat < hs.length := by
  intro e he
  obtain ⟨hne, hspec⟩ := compute_offset_blocks_spec m e he
  have hanchor : ∀ a ∈ e.2, ∃ b : Nat, a < b ∧ e.1 = (b : Int) - (a : Int) ∧
      hs[a]? = hs[b]? ∧ b < hs.length := by
    intro a ha
    obtain ⟨kv, hkv, b, hsub, ho⟩ := hspec a ha
    obtain ⟨hpair, hkey⟩ := hgrp kv hkv
    have hab : a < b := by
      have := hpair.sublist hsub
      rcases List.pairwise_cons.mp this with ⟨hr, _⟩
      exact hr b (List.mem_singleton_self b)
    have hamem : a ∈ kv.2 := hsub.mem (List.mem_cons_self _ _)
    have hbmem : b ∈ kv.2 := hsub.mem (List.mem_cons_of_mem _ (List.mem_singleton_self b))
    have hblt : b < hs.length := by
      rcases List.getElem?_eq_some_iff.mp (hkey b hbmem) with ⟨hlt, _⟩
      exact hlt
    exact ⟨b, hab, ho, by rw [hkey a hamem, hkey b hbmem], hblt⟩
  have hpos : 0 < e.1 := by
    obtain ⟨a, ha⟩ := List.exists_mem_of_ne_nil e.2 hne
    obtain ⟨b, hab, ho, _, _⟩ := hanchor a ha
    omega
  refine ⟨hne, hpos, ?_⟩
  intro a ha
  obtain ⟨b, hab, ho, hmatch, hblt⟩ := hanchor a ha
  have hb : a + e.1.toNat = b := by omega
  rw [hb]
  exact ⟨by omega, hmatch, hblt⟩

theorem median_getD_mem {l : List Nat} (hne : l ≠ []) : l.getD (l.length / 2) 0 ∈ l := by
  have hlt : l.length / 2 < l.length := by
    have : 0 < l.length := List.length_pos.mpr hne
    omega
  rw [List.getD_eq_getElem l 0 hlt]
  exact List.getElem_mem hlt

theorem mem_compute_candidate_ranges {ob : List (Int × List Nat)} {hs : List α} {c : Candidate} :
    c ∈ compute_candidate_ranges ob hs ↔ ∃ e ∈ ob, c = mkCandidate e.1 e.2 hs := by
  unfold compute_candidate_ranges expand_ranges
  rw [List.mem_insertionSort]
  constructor
  · intro h
    rcases List.mem_map.mp h with ⟨e, he, rfl⟩
    exact ⟨e, he, rfl⟩
  · rintro ⟨e, he, rfl⟩
    exact List.mem_map.mpr ⟨e, he, rfl⟩

theorem pipeline_candidates_spec (hs : List α) :
    ∀ c ∈ compute_candidate_ranges
      (compute_offset_blocks (eliminate_non_duplicates (generate_matching_hashes hs))) hs,
      ∃ o : Nat, c.offset = (o : Int) ∧ 0 < o ∧ c.total_blocks = hs.length ∧
        c.start_block ≤ c.stop_block ∧
        (∀ i, c.start_block ≤ i → i < c.stop_block → hs[i]? = hs[i + o]?) ∧
        c.stop_block + o ≤ hs.length := by
  intro c hc
  rcases mem_compute_candidate_ranges.mp hc with ⟨e, he, rfl⟩
  obtain ⟨hne, hpos, hanch⟩ :=
    offset_blocks_spec_of_groups hs _ (eliminate_gmh_group_props hs) e he
  set anchor := e.2.getD (e.2.length / 2) 0 with hanchor_def
  have hamem : anchor ∈ e.2 := median_getD_mem hne
  obtain ⟨_, hmatch, hlt⟩ := hanch anchor hamem
  refine ⟨e.1.toNat, by simp [mkCandidate]; omega, by omega, rfl, ?_, ?_, ?_⟩
  · show find_start_matching_block anchor e.1 hs ≤ find_stop_matching_block anchor e.1 hs
    exact le_trans (find_start_le _ _ _) (find_stop_ge _ _ _)
  · show ∀ i, find_start_matching_block anchor e.1 hs ≤ i →
      i < find_stop_matching_block anchor e.1 hs → hs[i]? = hs[i + e.1.toNat]?
    intro i h1 h2
    by_cases hia : i < anchor
    · have hm := find_start_matches anchor e.1 hs i h1 hia
      rw [hashAt_natCast, show (i : Int) + e.1 = (i : Int) + ((e.1.toNat : Nat) : Int) by omega,
        hashAt_add_natCast] at hm
      exact hm
    · have hge : anchor ≤ i := by omega
      have hm := find_stop_matches anchor e.1 hs i hge h2
      rw [hashAt_natCast, show (i : Int) + e.1 = (i : Int) + ((e.1.toNat : Nat) : Int) by omega,
        hashAt_add_natCast] at hm
      exact hm
  · show find_stop_matching_block anchor e.1 hs + e.1.toNat ≤ hs.length
    have hb := find_stop_le_of_bound anchor e.1 hs (by omega)
    omega


/-! ### Claim theorems (part 1) -/

/-- C10: for every match-group mapping whose index lists are strictly
ascending (and whose lists contain indices of blocks carrying the key
fingerprint, as match groups do), every key of the dictionary returned by
`compute_offset_blocks` is strictly positive (so the division by the
offset in `compute_candidate_ranges` is never a division by zero), and
every anchor `a` under offset `o` satisfies `fingerprint[a] =
fingerprint[a+o]` with `a + o` inside the sequence, so range expansion
starts from in-bounds indices. -/
theorem offset_blocks_safety (hs : List α) (m : List (α × List Nat))
    (hasc : ∀ kv ∈ m, List.Pairwise (· < ·) kv.2)
    (hmap : ∀ kv ∈ m, ∀ i ∈ kv.2, hs[i]? = some kv.1) :
    ∀ e ∈ compute_offset_blocks m, 0 < e.1 ∧ ((e.1 : ℚ) ≠ 0) ∧
      ∀ a ∈ e.2, hs[a]? = hs[a + e.1.toNat]? ∧ a + e.1.toNat < hs.length := by
  intro e he
  obtain ⟨_, hpos, hanch⟩ :=
    offset_blocks_spec_of_groups hs m (fun kv hkv => ⟨hasc kv hkv, hmap kv hkv⟩) e he
  refine ⟨hpos, ?_, fun a ha => (hanch a ha).2⟩
  exact Int.cast_ne_zero.mpr (by omega)

theorem offset_blocks_safety_witness :
    0 < (3 : Int) ∧ (((3 : Int) : ℚ) ≠ 0) ∧
      (([0, 7, 0, 0, 7] : List Nat)[1]? = [0, 7, 0, 0, 7][1 + (3 : Int).toNat]? ∧
        1 + (3 : Int).toNat < ([0, 7, 0, 0, 7] : List Nat).length) :=
  have h := offset_blocks_safety ([0, 7, 0, 0, 7] : List Nat) [((7 : Nat), [1, 4])]
    (by decide) (by decide) ((3 : Int), [1]) (by decide)
  ⟨h.1, h.2.1, h.2.2 1 (by decide)⟩

/-- C3: every candidate built by the range expander has an offset equal to
some natural number `o` such that every index `i` of `[start_block,
stop_block)` satisfies `fingerprint[i] = fingerprint[i+o]`, and
`stop_block + o` does not exceed `total_blocks`. -/
theorem candidate_ranges_match_invariant (hs : List α) :
    ∀ c ∈ compute_candidate_ranges
      (compute_offset_blocks (eliminate_non_duplicates (generate_matching_hashes hs))) hs,
      ∃ o : Nat, c.offset = (o : Int) ∧
        (∀ i, c.start_block ≤ i → i < c.stop_block → hs[i]? = hs[i + o]?) ∧
        c.stop_block + o ≤ c.total_blocks := by
  intro c hc
  obtain ⟨o, ho, _, htot, _, hmatch, hstop⟩ := pipeline_candidates_spec hs c hc
  exact ⟨o, ho, hmatch, by omega⟩

theorem candidate_ranges_match_invariant_witness :
    ∃ o : Nat, (Candidate.mk 3 1 4 8 1).offset = (o : Int) ∧
      (∀ i, (Candidate.mk 3 1 4 8 1).start_block ≤ i →
        i < (Candidate.mk 3 1 4 8 1).stop_block →
        ([0, 1, 2, 3, 1, 2, 3, 4] : List Nat)[i]? = [0, 1, 2, 3, 1, 2, 3, 4][i + o]?) ∧
      (Candidate.mk 3 1 4 8 1).stop_block + o ≤ (Candidate.mk 3 1 4 8 1).total_blocks :=
  candidate_ranges_match_invariant ([0, 1, 2, 3, 1, 2, 3, 4] : List Nat)
    (Candidate.mk 3 1 4 8 1) (by decide)

/-- C5: a candidate produced by the range expander appears in the final
output of `find_overlap_from_hashes` exactly when it passes both filters:
`(stop - start) + 1 ≥ offset` and `(stop - start) > 2`. -/
theorem mem_find_overlap_iff_filters (hs : List α) (c : Candidate) :
    c ∈ find_overlap_from_hashes hs ↔
      c ∈ compute_candidate_ranges
        (compute_offset_blocks (eliminate_non_duplicates (generate_matching_hashes hs))) hs ∧
      (c.stop_block : Int) - (c.start_block : Int) + 1 ≥ c.offset ∧
      (c.stop_block : Int) - (c.start_block : Int) > 2 := by
  show c ∈ ((compute_candidate_ranges
      (compute_offset_blocks (eliminate_non_duplicates (generate_matching_hashes hs))) hs).filter
        candidate_is_full_range).filter candidate_range_is_large_enough ↔ _
  simp only [List.mem_filter, candidate_is_full_range, candidate_range_is_large_enough,
    decide_eq_true_eq, ge_iff_le, gt_iff_lt, and_assoc]

theorem gmh_value_length (hs : List α) {k : α} {v : List Nat}
    (h : (k, v) ∈ generate_matching_hashes hs) : v.length = hs.count k := by
  cases hs with
  | nil => simp [generate_matching_hashes, ghmAux] at h
  | cons x xs =>
    haveI : Inhabited α := ⟨x⟩
    rw [generate_matching_hashes_eq_canon] at h
    rcases List.mem_map.mp h with ⟨i, hi, heq⟩
    have hilt : i < (x :: xs).length := (mem_firstIdxs.mp hi).1
    have hk : (x :: xs).getD i default = k := congrArg Prod.fst heq
    have hv : occIdxs (x :: xs) i = v := congrArg Prod.snd heq
    rw [← hv, length_occIdxs hilt, hk]

/-- C8: the duplicate filter removes exactly the entries whose index list
has fewer than 2 or more than 4 members, keeps the others unchanged and in
order, and adds nothing; consequently a fingerprint occurring exactly 5
times contributes nothing to offset clustering. -/
theorem eliminate_non_duplicates_spec (m : List (α × List Nat)) (hs : List α) (k : α) :
    (eliminate_non_duplicates m).Sublist m ∧
    (∀ kv : α × List Nat, kv ∈ eliminate_non_duplicates m ↔
      kv ∈ m ∧ 2 ≤ kv.2.length ∧ kv.2.length ≤ 4) ∧
    (hs.count k = 5 →
      ∀ v : List Nat, (k, v) ∉ eliminate_non_duplicates (generate_matching_hashes hs)) := by
  refine ⟨eliminate_sublist m, fun kv => mem_eliminate, ?_⟩
  intro hcount v hmem
  obtain ⟨hgmh, h2, h4⟩ := mem_eliminate.mp hmem
  have h2' : 2 ≤ v.length := h2
  have h4' : v.length ≤ 4 := h4
  have hlen : v.length = hs.count k := gmh_value_length hs hgmh
  omega

theorem eliminate_non_duplicates_spec_witness :
    (eliminate_non_duplicates [((0 : Nat), [0]), (1, [1, 2]), (3, [3, 4, 5, 6, 7])]).Sublist
        [((0 : Nat), [0]), (1, [1, 2]), (3, [3, 4, 5, 6, 7])] ∧
    ((9 : Nat), ([0, 1, 2, 3, 4] : List Nat)) ∉
      eliminate_non_duplicates (generate_matching_hashes ([9, 9, 9, 9, 9] : List Nat)) :=
  have h := eliminate_non_duplicates_spec [((0 : Nat), [0]), (1, [1, 2]), (3, [3, 4, 5, 6, 7])]
    ([9, 9, 9, 9, 9] : List Nat) 9
  ⟨h.1, h.2.2 (by decide) [0, 1, 2, 3, 4]⟩

/-- C7: a fingerprint sequence of length 0 or 1, and any sequence with no
repeated fingerprint, yields the empty candidate list as a normal result. -/
theorem find_overlap_trivial_inputs (hs : List α) :
    (hs.length ≤ 1 → find_overlap_from_hashes hs = []) ∧
    (hs.Nodup → find_overlap_from_hashes hs = []) := by
  have hyes : ∀ hs' : List α, eliminate_non_duplicates (generate_matching_hashes hs') = [] →
      find_overlap_from_hashes hs' = [] := by
    intro hs' helim
    have hdef : find_overlap_from_hashes hs' =
        ((compute_candidate_ranges
          (compute_offset_blocks (eliminate_non_duplicates (generate_matching_hashes hs'))) hs').filter
            candidate_is_full_range).filter candidate_range_is_large_enough := rfl
    rw [hdef, helim]
    rfl
  constructor
  · intro hlen
    match hs, hlen with
    | [], _ => rfl
    | [x], _ => rfl
  · intro hnd
    apply hyes
    apply List.eq_nil_iff_forall_not_mem.mpr
    rintro ⟨k, v⟩ hmem
    obtain ⟨hgmh, h2, _⟩ := mem_eliminate.mp hmem
    have h2' : 2 ≤ v.length := h2
    have hlen : v.length = hs.count k := gmh_value_length hs hgmh
    have hcount := List.nodup_iff_count_le_one.mp hnd k
    omega

theorem find_overlap_trivial_inputs_witness :
    find_overlap_from_hashes ([3, 1, 2] : List Nat) = [] :=
  (find_overlap_trivial_inputs ([3, 1, 2] : List Nat)).2 (by decide)

/-- C4: for a non-empty anchor list the range expander expands from the
anchor at positional index `len / 2` of the list (the upper-middle element
for even lengths; under the Python 2 semantics of the source,
`int(round(len(blocks) / 2))` is exactly `len // 2`); in particular a
one-element anchor list expands from its only entry. -/
theorem median_anchor_selection (offset : Int) (blocks : List Nat) (hs : List α)
    (hne : blocks ≠ []) :
    (∃ h : blocks.length / 2 < blocks.length,
      (mkCandidate offset blocks hs).start_block =
        find_start_matching_block (blocks.get ⟨blocks.length / 2, h⟩) offset hs ∧
      (mkCandidate offset blocks hs).stop_block =
        find_stop_matching_block (blocks.get ⟨blocks.length / 2, h⟩) offset hs) ∧
    (∀ a : Nat, (mkCandidate offset [a] hs).start_block = find_start_matching_block a offset hs ∧
      (mkCandidate offset [a] hs).stop_block = find_stop_matching_block a offset hs) := by
  have hlt : blocks.length / 2 < blocks.length := by
    have : 0 < blocks.length := List.length_pos.mpr hne
    omega
  refine ⟨⟨hlt, ?_, ?_⟩, ?_⟩
  · show find_start_matching_block (blocks.getD (blocks.length / 2) 0) offset hs = _
    rw [List.getD_eq_getElem blocks 0 hlt]
    rfl
  · show find_stop_matching_block (blocks.getD (blocks.length / 2) 0) offset hs = _
    rw [List.getD_eq_getElem blocks 0 hlt]
    rfl
  · intro a
    constructor
    · simp [mkCandidate]
    · simp [mkCandidate]

theorem median_anchor_selection_witness :
    (∃ h : ([1, 2, 3] : List Nat).length / 2 < ([1, 2, 3] : List Nat).length,
      (mkCandidate 3 [1, 2, 3] ([0, 1, 2, 3, 1, 2, 3, 4] : List Nat)).start_block =
        find_start_matching_block (([1, 2, 3] : List Nat).get ⟨([1, 2, 3] : List Nat).length / 2, h⟩)
          3 ([0, 1, 2, 3, 1, 2, 3, 4] : List Nat) ∧
      (mkCandidate 3 [1, 2, 3] ([0, 1, 2, 3, 1, 2, 3, 4] : List Nat)).stop_block =
        find_stop_matching_block (([1, 2, 3] : List Nat).get ⟨([1, 2, 3] : List Nat).length / 2, h⟩)
          3 ([0, 1, 2, 3, 1, 2, 3, 4] : List Nat)) ∧
    (∀ a : Nat, (mkCandidate 3 [a] ([0, 1, 2, 3, 1, 2, 3, 4] : List Nat)).start_block =
        find_start_matching_block a 3 ([0, 1, 2, 3, 1, 2, 3, 4] : List Nat) ∧
      (mkCandidate 3 [a] ([0, 1, 2, 3, 1, 2, 3, 4] : List Nat)).stop_block =
        find_stop_matching_block a 3 ([0, 1, 2, 3, 1, 2, 3, 4] : List Nat)) :=
  median_anchor_selection 3 [1, 2, 3] ([0, 1, 2, 3, 1, 2, 3, 4] : List Nat) (by decide)


/-! ### Rank, ordering and stability -/

theorem filter_rank_orderedInsert (q : ℚ) (c : Candidate) (l : List Candidate) :
    (l.orderedInsert rank_ge c).filter (fun d => decide (d.rank = q)) =
      if c.rank = q then c :: l.filter (fun d => decide (d.rank = q))
      else l.filter (fun d => decide (d.rank = q)) := by
  induction l with
  | nil =>
    simp only [List.orderedInsert_nil, List.filter_cons, List.filter_nil, decide_eq_true_eq]
  | cons b l ih =>
    rw [List.orderedInsert]
    by_cases hr : rank_ge c b
    · rw [if_pos hr]
      simp only [List.filter_cons, decide_eq_true_eq]
    · rw [if_neg hr]
      have hlt : c.rank < b.rank := by
        rw [rank_ge] at hr
        exact lt_of_not_le hr
      by_cases hcq : c.rank = q
      · have hbq : ¬ b.rank = q := by
          intro hbq
          rw [hbq, ← hcq] at hlt
          exact lt_irrefl _ hlt
        simp only [List.filter_cons, decide_eq_true_eq, ih]
        rw [if_neg hbq, if_pos hcq, if_pos hcq, if_neg hbq]
      · simp only [List.filter_cons, decide_eq_true_eq, ih]
        rw [if_neg hcq, if_neg hcq]

theorem filter_rank_insertionSort (q : ℚ) (l : List Candidate) :
    (l.insertionSort rank_ge).filter (fun d => decide (d.rank = q)) =
      l.filter (fun d => decide (d.rank = q)) := by
  induction l with
  | nil => rfl
  | cons c l ih =>
    rw [List.insertionSort, filter_rank_orderedInsert, ih]
    simp only [List.filter_cons, decide_eq_true_eq]

/-- C6: every candidate's rank is `(stop_block - start_block) / offset`
(as an exact rational; the source computes it in floating point), the list
returned by `find_overlap_from_hashes` is sorted by non-increasing rank,
and the sort is stable: for each rank value, the candidates carrying it
appear in the same order as in the unsorted expansion list (dictionary
iteration order). -/
theorem rank_formula_and_order (hs : List α) :
    (∀ c ∈ find_overlap_from_hashes hs,
      c.rank = (((c.stop_block : Int) - (c.start_block : Int) : Int) : ℚ) / ((c.offset : ℚ))) ∧
    List.Sorted rank_ge (find_overlap_from_hashes hs) ∧
    (∀ q : ℚ, (compute_candidate_ranges (compute_offset_blocks (eliminate_non_duplicates
        (generate_matching_hashes hs))) hs).filter (fun c => decide (c.rank = q)) =
      (expand_ranges (compute_offset_blocks (eliminate_non_duplicates
        (generate_matching_hashes hs))) hs).filter (fun c => decide (c.rank = q))) := by
  refine ⟨?_, ?_, ?_⟩
  · intro c hc
    have hccr := ((mem_find_overlap_iff_filters hs c).mp hc).1
    rcases mem_compute_candidate_ranges.mp hccr with ⟨e, he, rfl⟩
    have hrank : (mkCandidate e.1 e.2 hs).rank =
        Rat.divInt (((mkCandidate e.1 e.2 hs).stop_block : Int) -
          ((mkCandidate e.1 e.2 hs).start_block : Int)) ((mkCandidate e.1 e.2 hs).offset) := rfl
    rw [hrank, Rat.divInt_eq_div]
  · have hsorted : List.Sorted rank_ge (compute_candidate_ranges
        (compute_offset_blocks (eliminate_non_duplicates (generate_matching_hashes hs))) hs) :=
      List.sorted_insertionSort rank_ge _
    exact (hsorted.filter _).filter _
  · intro q
    exact filter_rank_insertionSort q _

theorem rank_formula_and_order_witness :
    (Candidate.mk 3 1 4 8 1).rank =
      ((((Candidate.mk 3 1 4 8 1).stop_block : Int) -
        ((Candidate.mk 3 1 4 8 1).start_block : Int) : Int) : ℚ) /
        (((Candidate.mk 3 1 4 8 1).offset : ℚ)) :=
  (rank_formula_and_order ([0, 1, 2, 3, 1, 2, 3, 4] : List Nat)).1
    (Candidate.mk 3 1 4 8 1) (by decide)


/-! ### The pipeline depends only on the equality pattern of the hashes -/

section PatternCongruence

variable {hs : List α} {hs' : List β}

theorem getElem?_none_congr (hlen : hs'.length = hs.length) (n : Nat) :
    hs'[n]? = none ↔ hs[n]? = none := by
  rw [List.getElem?_eq_none_iff, List.getElem?_eq_none_iff, hlen]

theorem firstIdxs_congr (hlen : hs'.length = hs.length)
    (hpat : ∀ i j : Nat, (hs'[i]? = hs'[j]?) ↔ (hs[i]? = hs[j]?)) :
    firstIdxs hs' = firstIdxs hs := by
  unfold firstIdxs
  rw [hlen]
  apply List.filter_congr
  intro i _
  apply decide_eq_decide.mpr
  apply forall_congr'
  intro j
  apply imp_congr_right
  intro _
  exact not_congr (hpat j i)

theorem occIdxs_congr (hlen : hs'.length = hs.length)
    (hpat : ∀ i j : Nat, (hs'[i]? = hs'[j]?) ↔ (hs[i]? = hs[j]?)) (i : Nat) :
    occIdxs hs' i = occIdxs hs i := by
  unfold occIdxs
  rw [hlen]
  apply List.filter_congr
  intro j _
  exact decide_eq_decide.mpr (hpat j i)

theorem gmh_snd_congr (hlen : hs'.length = hs.length)
    (hpat : ∀ i j : Nat, (hs'[i]? = hs'[j]?) ↔ (hs[i]? = hs[j]?)) :
    (generate_matching_hashes hs').map Prod.snd =
      (generate_matching_hashes hs).map Prod.snd := by
  match hs, hs', hlen with
  | [], [], _ => rfl
  | x :: xs, y :: ys, hlen =>
    haveI : Inhabited α := ⟨x⟩
    haveI : Inhabited β := ⟨y⟩
    rw [generate_matching_hashes_eq_canon, generate_matching_hashes_eq_canon,
      canonGroups, canonGroups, List.map_map, List.map_map]
    rw [firstIdxs_congr hlen hpat]
    apply List.map_congr_left
    intro i _
    show occIdxs (y :: ys) i = occIdxs (x :: xs) i
    exact occIdxs_congr hlen hpat i

theorem eliminate_snd_congr :
    ∀ {m : List (α × List Nat)} {m' : List (β × List Nat)},
      m.map Prod.snd = m'.map Prod.snd →
      (eliminate_non_duplicates m).map Prod.snd =
        (eliminate_non_duplicates m').map Prod.snd := by
  intro m
  induction m with
  | nil =>
    intro m' h
    have : m' = [] := by
      cases m' with
      | nil => rfl
      | cons e r => simp at h
    subst this
    rfl
  | cons e rest ih =>
    intro m' h
    cases m' with
    | nil => simp at h
    | cons e' rest' =>
      obtain ⟨k, v⟩ := e
      obtain ⟨k', v'⟩ := e'
      simp only [List.map_cons, List.cons.injEq] at h
      obtain ⟨hv, hrest⟩ := h
      have hv' : v = v' := hv
      subst hv'
      simp only [eliminate_non_duplicates]
      by_cases hc : v.length < 2 ∨ 4 < v.length
      · rw [if_pos hc, if_pos hc]
        exact ih hrest
      · rw [if_neg hc, if_neg hc]
        simp only [List.map_cons]
        rw [ih hrest]

theorem compute_offset_blocks_eq_of_snd {m : List (α × List Nat)} {m' : List (β × List Nat)}
    (h : m.map Prod.snd = m'.map Prod.snd) :
    compute_offset_blocks m = compute_offset_blocks m' := by
  unfold compute_offset_blocks
  congr 1
  have h1 : m.foldl (fun acc kv => pairsAux acc kv.2) [] =
      (m.map Prod.snd).foldl (fun acc v => pairsAux acc v) [] := (List.foldl_map _ _ _ _).symm
  have h2 : m'.foldl (fun acc kv => pairsAux acc kv.2) [] =
      (m'.map Prod.snd).foldl (fun acc v => pairsAux acc v) [] := (List.foldl_map _ _ _ _).symm
  rw [h1, h2, h]

theorem hashAt_pattern (hlen : hs'.length = hs.length)
    (hpat : ∀ i j : Nat, (hs'[i]? = hs'[j]?) ↔ (hs[i]? = hs[j]?)) (i j : Int) :
    (hashAt hs' i = hashAt hs' j) ↔ (hashAt hs i = hashAt hs j) := by
  unfold hashAt
  by_cases hi : 0 ≤ i
  · by_cases hj : 0 ≤ j
    · rw [if_pos hi, if_pos hj, if_pos hi, if_pos hj]
      exact hpat i.toNat j.toNat
    · rw [if_pos hi, if_neg hj, if_pos hi, if_neg hj]
      exact (getElem?_none_congr hlen i.toNat)
  · by_cases hj : 0 ≤ j
    · rw [if_neg hi, if_pos hj, if_neg hi, if_pos hj]
      rw [eq_comm, @eq_comm _ (none : Option α) _]
      exact (getElem?_none_congr hlen j.toNat)
    · rw [if_neg hi, if_neg hj, if_neg hi, if_neg hj]
      simp

theorem find_start_congr (hlen : hs'.length = hs.length)
    (hpat : ∀ i j : Nat, (hs'[i]? = hs'[j]?) ↔ (hs[i]? = hs[j]?)) :
    ∀ (s : Nat) (o : Int), find_start_matching_block s o hs' = find_start_matching_block s o hs := by
  intro s o
  induction s with
  | zero => rfl
  | succ t ih =>
    simp only [find_start_matching_block]
    by_cases hc : hashAt hs (t : Int) ≠ hashAt hs ((t : Int) + o)
    · have hc' : hashAt hs' (t : Int) ≠ hashAt hs' ((t : Int) + o) := fun hcontra =>
        hc ((hashAt_pattern hlen hpat (t : Int) ((t : Int) + o)).mp hcontra)
      rw [if_pos hc', if_pos hc]
    · push_neg at hc
      have hc' : hashAt hs' (t : Int) = hashAt hs' ((t : Int) + o) :=
        (hashAt_pattern hlen hpat (t : Int) ((t : Int) + o)).mpr hc
      rw [if_neg (fun hcontra => hcontra hc'), if_neg (fun hcontra => hcontra hc)]
      exact ih

theorem find_stop_aux_congr (hlen : hs'.length = hs.length)
    (hpat : ∀ i j : Nat, (hs'[i]? = hs'[j]?) ↔ (hs[i]? = hs[j]?)) :
    ∀ (fuel s : Nat), find_stop_aux hs' o fuel s = find_stop_aux hs o fuel s := by
  intro fuel
  induction fuel with
  | zero => intro s; rfl
  | succ fuel ih =>
    intro s
    simp only [find_stop_aux, hlen]
    by_cases hg : (s : Int) + o < (hs.length : Int)
    · rw [if_pos hg, if_pos hg]
      by_cases hc : hashAt hs (s : Int) ≠ hashAt hs ((s : Int) + o)
      · have hc' : hashAt hs' (s : Int) ≠ hashAt hs' ((s : Int) + o) := fun hcontra =>
          hc ((hashAt_pattern hlen hpat (s : Int) ((s : Int) + o)).mp hcontra)
        rw [if_pos hc', if_pos hc]
      · push_neg at hc
        have hc' : hashAt hs' (s : Int) = hashAt hs' ((s : Int) + o) :=
          (hashAt_pattern hlen hpat (s : Int) ((s : Int) + o)).mpr hc
        rw [if_neg (fun hcontra => hcontra hc'), if_neg (fun hcontra => hcontra hc)]
        exact ih (s + 1)
    · rw [if_neg hg, if_neg hg]

theorem find_stop_congr (hlen : hs'.length = hs.length)
    (hpat : ∀ i j : Nat, (hs'[i]? = hs'[j]?) ↔ (hs[i]? = hs[j]?)) (s : Nat) (o : Int) :
    find_stop_matching_block s o hs' = find_stop_matching_block s o hs := by
  unfold find_stop_matching_block
  rw [hlen]
  exact find_stop_aux_congr hlen hpat _ s

theorem mkCandidate_congr (hlen : hs'.length = hs.length)
    (hpat : ∀ i j : Nat, (hs'[i]? = hs'[j]?) ↔ (hs[i]? = hs[j]?)) (o : Int) (blocks : List Nat) :
    mkCandidate o blocks hs' = mkCandidate o blocks hs := by
  simp only [mkCandidate]
  rw [find_start_congr hlen hpat, find_stop_congr hlen hpat, hlen]

theorem find_overlap_pattern_congr (hlen : hs'.length = hs.length)
    (hpat : ∀ i j : Nat, (hs'[i]? = hs'[j]?) ↔ (hs[i]? = hs[j]?)) :
    find_overlap_from_hashes hs' = find_overlap_from_hashes hs := by
  have hob : compute_offset_blocks (eliminate_non_duplicates (generate_matching_hashes hs')) =
      compute_offset_blocks (eliminate_non_duplicates (generate_matching_hashes hs)) :=
    compute_offset_blocks_eq_of_snd (eliminate_snd_congr (gmh_snd_congr hlen hpat))
  have hccr : compute_candidate_ranges
      (compute_offset_blocks (eliminate_non_duplicates (generate_matching_hashes hs'))) hs' =
      compute_candidate_ranges
        (compute_offset_blocks (eliminate_non_duplicates (generate_matching_hashes hs))) hs := by
    rw [hob]
    unfold compute_candidate_ranges expand_ranges
    congr 1
    apply List.map_congr_left
    intro e _
    exact mkCandidate_congr hlen hpat e.1 e.2
  show ((compute_candidate_ranges
      (compute_offset_blocks (eliminate_non_duplicates (generate_matching_hashes hs'))) hs').filter
        candidate_is_full_range).filter candidate_range_is_large_enough = _
  rw [hccr]
  rfl

end PatternCongruence


/-- C9: replacing each fingerprint by the first block number sharing it
(the substitution `dump_hashes` writes as a label) preserves the
fingerprint-equality relation between indices, and the pipeline output on
the substituted sequence is identical, candidate for candidate. -/
theorem dump_substitution_faithful (hs : List α) :
    (substitute_hashes hs).length = hs.length ∧
    (∀ i j : Nat, ((substitute_hashes hs)[i]? = (substitute_hashes hs)[j]?) ↔
      (hs[i]? = hs[j]?)) ∧
    find_overlap_from_hashes (substitute_hashes hs) = find_overlap_from_hashes hs := by
  have hlen : (substitute_hashes hs).length = hs.length := List.length_map _ _
  have hnone : ∀ n : Nat, (substitute_hashes hs)[n]? = none ↔ hs[n]? = none :=
    getElem?_none_congr hlen
  have hpat : ∀ i j : Nat, ((substitute_hashes hs)[i]? = (substitute_hashes hs)[j]?) ↔
      (hs[i]? = hs[j]?) := by
    intro i j
    by_cases hj : j < hs.length
    · by_cases hi : i < hs.length
      · constructor
        · intro heq
          obtain ⟨fi, hfi, hfieq⟩ := substitute_hashes_getElem hs hi
          obtain ⟨fj, hfj, hfjeq⟩ := substitute_hashes_getElem hs hj
          rw [hfi, hfj] at heq
          rw [← hfieq, Option.some.inj heq, hfjeq]
        · intro heq
          show (hs.map _)[i]? = (hs.map _)[j]?
          rw [List.getElem?_map, List.getElem?_map, heq]
      · have h1 : hs[i]? = none := by rw [List.getElem?_eq_none_iff]; omega
        have h2 : (substitute_hashes hs)[i]? = none := (hnone i).mpr h1
        rw [h1, h2, eq_comm, @eq_comm _ (none : Option α) _]
        exact hnone j
    · have h1 : hs[j]? = none := by rw [List.getElem?_eq_none_iff]; omega
      have h2 : (substitute_hashes hs)[j]? = none := (hnone j).mpr h1
      rw [h1, h2]
      exact hnone i
  exact ⟨hlen, hpat, find_overlap_pattern_congr hlen hpat⟩

theorem dump_substitution_faithful_witness :
    ((substitute_hashes ([10, 11, 10] : List Nat))[0]? =
        (substitute_hashes ([10, 11, 10] : List Nat))[2]? ↔
      ([10, 11, 10] : List Nat)[0]? = [10, 11, 10][2]?) ∧
    find_overlap_from_hashes (substitute_hashes ([10, 11, 10] : List Nat)) =
      find_overlap_from_hashes ([10, 11, 10] : List Nat) :=
  ⟨(dump_substitution_faithful ([10, 11, 10] : List Nat)).2.1 0 2,
    (dump_substitution_faithful ([10, 11, 10] : List Nat)).2.2⟩


/-- C2: end-to-end scenario for fingerprints `[A,B,C,D,B,C,D,G]` with
pairwise-distinct letter values: the filtered match groups are
`{B:[1,4], C:[2,5], D:[3,6]}`, the offset bucket is `{3:[1,2,3]}`, and the
pipeline returns the single candidate with offset 3, start 1, stop 4,
8 total blocks and rank 1. -/
theorem end_to_end_scenario (a b c d g : α)
    (hab : a ≠ b) (hac : a ≠ c) (had : a ≠ d) (hag : a ≠ g)
    (hbc : b ≠ c) (hbd : b ≠ d) (hbg : b ≠ g)
    (hcd : c ≠ d) (hcg : c ≠ g) (hdg : d ≠ g) :
    eliminate_non_duplicates (generate_matching_hashes [a, b, c, d, b, c, d, g]) =
      [(b, [1, 4]), (c, [2, 5]), (d, [3, 6])] ∧
    compute_offset_blocks
      (eliminate_non_duplicates (generate_matching_hashes [a, b, c, d, b, c, d, g])) =
      [((3 : Int), [1, 2, 3])] ∧
    find_overlap_from_hashes [a, b, c, d, b, c, d, g] =
      [Candidate.mk 3 1 4 8 1] := by
  have hgmh : generate_matching_hashes [a, b, c, d, b, c, d, g] =
      [(a, [0]), (b, [1, 4]), (c, [2, 5]), (d, [3, 6]), (g, [7])] := by
    simp [generate_matching_hashes, ghmAux, insertHash,
      hab, hac, had, hag, hbc, hbd, hbg, hcd, hcg, hdg]
  have helim : eliminate_non_duplicates (generate_matching_hashes [a, b, c, d, b, c, d, g]) =
      [(b, [1, 4]), (c, [2, 5]), (d, [3, 6])] := by
    rw [hgmh]
    simp [eliminate_non_duplicates]
  have hob : compute_offset_blocks
      (eliminate_non_duplicates (generate_matching_hashes [a, b, c, d, b, c, d, g])) =
      [((3 : Int), [1, 2, 3])] := by
    rw [helim]
    simp [compute_offset_blocks, pairsAux, addOffset, List.insertionSort, List.orderedInsert]
  have hccr : compute_candidate_ranges
      (compute_offset_blocks
        (eliminate_non_duplicates (generate_matching_hashes [a, b, c, d, b, c, d, g])))
      [a, b, c, d, b, c, d, g] = [Candidate.mk 3 1 4 8 1] := by
    rw [hob]
    simp [compute_candidate_ranges, expand_ranges, mkCandidate, find_start_matching_block,
      find_stop_matching_block, find_stop_aux, hashAt, List.insertionSort, List.orderedInsert,
      hab, hac, had, hag, hbc, hbd, hbg, hcd, hcg, hdg]
  refine ⟨helim, hob, ?_⟩
  show ((compute_candidate_ranges
      (compute_offset_blocks
        (eliminate_non_duplicates (generate_matching_hashes [a, b, c, d, b, c, d, g])))
      [a, b, c, d, b, c, d, g]).filter candidate_is_full_range).filter
        candidate_range_is_large_enough = _
  rw [hccr]
  rfl

theorem end_to_end_scenario_witness :
    eliminate_non_duplicates (generate_matching_hashes ([10, 11, 12, 13, 11, 12, 13, 14] : List Nat)) =
      [(11, [1, 4]), (12, [2, 5]), (13, [3, 6])] ∧
    compute_offset_blocks (eliminate_non_duplicates
      (generate_matching_hashes ([10, 11, 12, 13, 11, 12, 13, 14] : List Nat))) =
      [((3 : Int), [1, 2, 3])] ∧
    find_overlap_from_hashes ([10, 11, 12, 13, 11, 12, 13, 14] : List Nat) =
      [Candidate.mk 3 1 4 8 1] :=
  end_to_end_scenario 10 11 12 13 14 (by decide) (by decide) (by decide) (by decide)
    (by decide) (by decide) (by decide) (by decide) (by decide) (by decide)


/-! ### A clean single overlap -/

theorem sorted_lt_ext {l₁ l₂ : List Nat} (h₁ : List.Pairwise (· < ·) l₁)
    (h₂ : List.Pairwise (· < ·) l₂) (hmem : ∀ x, x ∈ l₁ ↔ x ∈ l₂) : l₁ = l₂ := by
  haveI : IsAntisymm Nat (· < ·) := ⟨fun x y hxy hyx => absurd hxy (by omega)⟩
  have hnd₁ : l₁.Nodup := h₁.imp (fun hlt => Nat.ne_of_lt hlt)
  have hnd₂ : l₂.Nodup := h₂.imp (fun hlt => Nat.ne_of_lt hlt)
  exact List.eq_of_perm_of_sorted ((List.perm_ext_iff_of_nodup hnd₁ hnd₂).mpr hmem) h₁ h₂

theorem pairwise_lt_firstIdxs (hs : List α) : List.Pairwise (· < ·) (firstIdxs hs) :=
  (List.pairwise_lt_range _).filter _

theorem src_match {hs : List α} {a o : Nat}
    (H1 : ∀ i, i < o → hs[a + i]? = hs[a + o + i]?) :
    ∀ i, a ≤ i → i < a + o → hs[i]? = hs[i + o]? := by
  intro i h1 h2
  have h := H1 (i - a) (by omega)
  have e1 : a + (i - a) = i := by omega
  have e2 : a + o + (i - a) = i + o := by omega
  rwa [e1, e2] at h

theorem occ_src {hs : List α} {a o : Nat} (ho : 0 < o) (hlen2 : a + 2 * o ≤ hs.length)
    (H1 : ∀ i, i < o → hs[a + i]? = hs[a + o + i]?)
    (H2 : ∀ j, j < hs.length → ∀ i, i < j → hs[i]? = hs[j]? → j = i + o ∧ a ≤ i ∧ i < a + o)
    {i : Nat} (hi1 : a ≤ i) (hi2 : i < a + o) : occIdxs hs i = [i, i + o] := by
  apply sorted_lt_ext (pairwise_lt_occIdxs hs i)
  · refine List.pairwise_cons.mpr ⟨?_, ?_⟩
    · intro y hy
      rw [List.mem_singleton] at hy
      omega
    · simp
  · intro x
    rw [mem_occIdxs]
    constructor
    · rintro ⟨hxlt, hxeq⟩
      rcases lt_trichotomy x i with hlt | rfl | hgt
      · exfalso
        obtain ⟨heq, hax, _⟩ := H2 i (by omega) x hlt hxeq
        omega
      · exact List.mem_cons_self _ _
      · obtain ⟨heq, _, _⟩ := H2 x hxlt i hgt hxeq.symm
        rw [heq]
        exact List.mem_cons_of_mem _ (List.mem_singleton_self _)
    · intro hx
      rcases List.mem_cons.mp hx with rfl | hx
      · exact ⟨by omega, rfl⟩
      · rw [List.mem_singleton] at hx
        subst hx
        exact ⟨by omega, (src_match H1 i hi1 hi2).symm⟩

theorem occ_other {hs : List α} {a o : Nat} (hlen2 : a + 2 * o ≤ hs.length)
    (H1 : ∀ i, i < o → hs[a + i]? = hs[a + o + i]?)
    (H2 : ∀ j, j < hs.length → ∀ i, i < j → hs[i]? = hs[j]? → j = i + o ∧ a ≤ i ∧ i < a + o)
    {i : Nat} (hilt : i < hs.length) (hnsrc : ¬(a ≤ i ∧ i < a + o))
    (hndst : ¬(a + o ≤ i ∧ i < a + 2 * o)) : occIdxs hs i = [i] := by
  apply sorted_lt_ext (pairwise_lt_occIdxs hs i) (List.pairwise_singleton _ _)
  intro x
  rw [mem_occIdxs, List.mem_singleton]
  constructor
  · rintro ⟨hxlt, hxeq⟩
    rcases lt_trichotomy x i with hlt | rfl | hgt
    · exfalso
      obtain ⟨heq, hax, hxa⟩ := H2 i hilt x hlt hxeq
      omega
    · rfl
    · exfalso
      obtain ⟨heq, hai, hia⟩ := H2 x hxlt i hgt hxeq.symm
      omega
  · rintro rfl
    exact ⟨hilt, rfl⟩

theorem dst_not_first {hs : List α} {a o : Nat} (ho : 0 < o)
    (H1 : ∀ i, i < o → hs[a + i]? = hs[a + o + i]?)
    {i : Nat} (hd1 : a + o ≤ i) (hd2 : i < a + 2 * o) : i ∉ firstIdxs hs := by
  intro hmem
  obtain ⟨hilt, hfirst⟩ := mem_firstIdxs.mp hmem
  apply hfirst (i - o) (by omega)
  have h := src_match H1 (i - o) (by omega) (by omega)
  rwa [show i - o + o = i by omega] at h

theorem src_first {hs : List α} {a o : Nat} (hlen2 : a + 2 * o ≤ hs.length)
    (H2 : ∀ j, j < hs.length → ∀ i, i < j → hs[i]? = hs[j]? → j = i + o ∧ a ≤ i ∧ i < a + o)
    {i : Nat} (hi1 : a ≤ i) (hi2 : i < a + o) : i ∈ firstIdxs hs := by
  apply mem_firstIdxs.mpr
  refine ⟨by omega, ?_⟩
  intro j hj hcontra
  obtain ⟨heq, haj, hja⟩ := H2 i (by omega) j hj hcontra
  omega

theorem elim_canon [Inhabited α] {hs : List α} {a o : Nat} (ho : 0 < o)
    (hlen2 : a + 2 * o ≤ hs.length)
    (H1 : ∀ i, i < o → hs[a + i]? = hs[a + o + i]?)
    (H2 : ∀ j, j < hs.length → ∀ i, i < j → hs[i]? = hs[j]? → j = i + o ∧ a ≤ i ∧ i < a + o) :
    eliminate_non_duplicates (canonGroups hs) =
      (List.range' a o).map (fun i => (hs.getD i default, [i, i + o])) := by
  rw [eliminate_eq_filter, canonGroups, List.filter_map]
  have hFidx : (firstIdxs hs).filter
      ((fun kv : α × List Nat => decide (2 ≤ kv.2.length ∧ kv.2.length ≤ 4)) ∘
        (fun i => (hs.getD i default, occIdxs hs i))) = List.range' a o := by
    apply sorted_lt_ext ((pairwise_lt_firstIdxs hs).filter _) (List.pairwise_lt_range' a o)
    intro x
    rw [List.mem_filter, List.mem_range'_1]
    constructor
    · rintro ⟨hfirst, hsz⟩
      simp only [Function.comp, decide_eq_true_eq] at hsz
      obtain ⟨h2, h4⟩ := hsz
      obtain ⟨hxlt, _⟩ := mem_firstIdxs.mp hfirst
      by_cases hsrc : a ≤ x ∧ x < a + o
      · exact hsrc
      · exfalso
        by_cases hdst : a + o ≤ x ∧ x < a + 2 * o
        · exact dst_not_first ho H1 hdst.1 hdst.2 hfirst
        · rw [occ_other hlen2 H1 H2 hxlt hsrc hdst] at h2
          simp at h2
    · intro hx
      refine ⟨src_first hlen2 H2 hx.1 hx.2, ?_⟩
      simp only [Function.comp, decide_eq_true_eq]
      rw [occ_src ho hlen2 H1 H2 hx.1 hx.2]
      simp
  rw [hFidx]
  apply List.map_congr_left
  intro i hi
  have hi' := List.mem_range'_1.mp hi
  rw [occ_src ho hlen2 H1 H2 hi'.1 hi'.2]


theorem pairsAux_pair (acc : List (Int × List Nat)) (x y : Nat) :
    pairsAux acc [x, y] = addOffset acc ((y : Int) - (x : Int)) x := by
  simp [pairsAux]

theorem foldl_pairsAux_pairs (o : Nat) :
    ∀ (l : List Nat) (v : List Nat),
      l.foldl (fun acc i => pairsAux acc [i, i + o]) [((o : Int), v)] = [((o : Int), v ++ l)] := by
  intro l
  induction l with
  | nil => intro v; simp
  | cons x rest ih =>
    intro v
    rw [List.foldl_cons, pairsAux_pair,
      (show ((x + o : Nat) : Int) - (x : Int) = (o : Int) by push_cast; ring)]
    have hadd : addOffset [((o : Int), v)] (o : Int) x = [((o : Int), v ++ [x])] := by
      simp [addOffset]
    rw [hadd, ih (v ++ [x]), List.append_assoc, List.singleton_append]

theorem cob_pairs (k : Nat → α) (a o : Nat) (ho : 0 < o) :
    compute_offset_blocks ((List.range' a o).map (fun i => (k i, [i, i + o]))) =
      [((o : Int), List.range' a o)] := by
  obtain ⟨o', rfl⟩ : ∃ o', o = o' + 1 := ⟨o - 1, by omega⟩
  unfold compute_offset_blocks
  have hfold : ((List.range' a (o' + 1)).map (fun i => (k i, [i, i + (o' + 1)]))).foldl
      (fun acc kv => pairsAux acc kv.2) [] = [(((o' + 1 : Nat) : Int), List.range' a (o' + 1))] := by
    rw [List.foldl_map, List.range'_succ, List.foldl_cons, pairsAux_pair,
      (show ((a + (o' + 1) : Nat) : Int) - (a : Int) = ((o' + 1 : Nat) : Int) by push_cast; ring)]
    have hadd : addOffset [] ((o' + 1 : Nat) : Int) a = [(((o' + 1 : Nat) : Int), [a])] := rfl
    rw [hadd, foldl_pairsAux_pairs (o' + 1) _ [a], List.singleton_append, ← List.range'_succ]
  rw [hfold]
  have hsorted : List.Pairwise (· ≤ ·) (List.range' a (o' + 1)) :=
    (List.pairwise_lt_range' a (o' + 1)).imp (fun h => Nat.le_of_lt h)
  simp only [List.map_cons, List.map_nil]
  rw [List.Sorted.insertionSort_eq hsorted]

theorem mk_single {hs : List α} {a o : Nat} (h3 : 3 ≤ o) (hlen2 : a + 2 * o ≤ hs.length)
    (H1 : ∀ i, i < o → hs[a + i]? = hs[a + o + i]?)
    (H2 : ∀ j, j < hs.length → ∀ i, i < j → hs[i]? = hs[j]? → j = i + o ∧ a ≤ i ∧ i < a + o) :
    mkCandidate (o : Int) (List.range' a o) hs = ⟨(o : Int), a, a + o, hs.length, 1⟩ := by
  have hanchor : (List.range' a o).getD ((List.range' a o).length / 2) 0 = a + o / 2 := by
    have hlt : o / 2 < o := by omega
    rw [List.length_range',
      List.getD_eq_getElem _ _ (by rw [List.length_range']; exact hlt),
      List.getElem_range']
    omega
  have hstart : find_start_matching_block (a + o / 2) (o : Int) hs = a := by
    apply find_start_eq_of _ _ _ _ (by omega)
    · intro i h1 h2
      rw [hashAt_natCast, hashAt_add_natCast]
      exact src_match H1 i (by omega) (by omega)
    · by_cases ha0 : a = 0
      · exact Or.inl ha0
      · right
        rw [(show ((a : Nat) : Int) - 1 = (((a - 1 : Nat)) : Int) by omega),
          hashAt_natCast, hashAt_add_natCast]
        intro hcontra
        obtain ⟨heq, hax, _⟩ := H2 (a - 1 + o) (by omega) (a - 1) (by omega) hcontra
        omega
  have hstop : find_stop_matching_block (a + o / 2) (o : Int) hs = a + o := by
    apply find_stop_eq_of _ _ _ _ (by omega)
    · intro i h1 h2
      rw [hashAt_natCast, hashAt_add_natCast]
      exact src_match H1 i (by omega) (by omega)
    · push_cast
      omega
    · by_cases hend : a + 2 * o = hs.length
      · left
        push_cast
        omega
      · right
        rw [hashAt_natCast, hashAt_add_natCast]
        intro hcontra
        obtain ⟨heq, _, hlt⟩ := H2 (a + o + o) (by omega) (a + o) (by omega) hcontra
        omega
  simp only [mkCandidate]
  rw [hanchor, hstart, hstop,
    (show ((a + o : Nat) : Int) - ((a : Nat) : Int) = (o : Int) by push_cast; ring),
    Rat.divInt_self' (by exact_mod_cast (by omega : o ≠ 0))]

/-- C1 (amended: additionally require `3 ≤ offset`, since the
minimum-size filter `(stop - start) > 2` rejects any clean overlap of
offset 1 or 2): for every fingerprint sequence in which blocks
`[a, a+offset)` match `[a+offset, a+2*offset)` pairwise and no other two
blocks share a fingerprint, the pipeline returns exactly one candidate,
with that offset, `start_block = a`, `stop_block = a + offset` (hence
`start ≤ a` and `stop ≥ a + offset`), and rank 1. -/
theorem single_overlap_detected (hs : List α) (a o : Nat) (h3 : 3 ≤ o)
    (hlen2 : a + 2 * o ≤ hs.length)
    (H1 : ∀ i, i < o → hs[a + i]? = hs[a + o + i]?)
    (H2 : ∀ j, j < hs.length → ∀ i, i < j → hs[i]? = hs[j]? → j = i + o ∧ a ≤ i ∧ i < a + o) :
    find_overlap_from_hashes hs = [⟨(o : Int), a, a + o, hs.length, 1⟩] := by
  have hne : hs ≠ [] := by
    intro h
    rw [h] at hlen2
    simp at hlen2
    omega
  haveI : Inhabited α := ⟨hs.head hne⟩
  have hdef : find_overlap_from_hashes hs = ((compute_candidate_ranges (compute_offset_blocks
      (eliminate_non_duplicates (generate_matching_hashes hs))) hs).filter
        candidate_is_full_range).filter candidate_range_is_large_enough := rfl
  rw [hdef, generate_matching_hashes_eq_canon,
    elim_canon (by omega : 0 < o) hlen2 H1 H2,
    cob_pairs (fun i => hs.getD i default) a o (by omega)]
  have hccr : compute_candidate_ranges [((o : Int), List.range' a o)] hs =
      [mkCandidate (o : Int) (List.range' a o) hs] := by
    simp [compute_candidate_ranges, expand_ranges, List.insertionSort]
  rw [hccr, mk_single h3 hlen2 H1 H2]
  have hf1 : candidate_is_full_range ⟨(o : Int), a, a + o, hs.length, 1⟩ = true := by
    simp only [candidate_is_full_range, decide_eq_true_eq]
    push_cast
    omega
  have hf2 : candidate_range_is_large_enough ⟨(o : Int), a, a + o, hs.length, 1⟩ = true := by
    simp only [candidate_range_is_large_enough, decide_eq_true_eq]
    push_cast
    omega
  simp [List.filter_cons, hf1, hf2]

theorem single_overlap_detected_witness :
    find_overlap_from_hashes ([5, 0, 1, 2, 0, 1, 2, 6] : List Nat) =
      [⟨((3 : Nat) : Int), 1, 1 + 3, ([5, 0, 1, 2, 0, 1, 2, 6] : List Nat).length, 1⟩] :=
  single_overlap_detected ([5, 0, 1, 2, 0, 1, 2, 6] : List Nat) 1 3 (by decide) (by decide)
    (by decide) (by decide)

/-- C1, counterexample to the unamended claim: at `a = 0`, `offset = 1`
on the fingerprint sequence `[0, 0]` all the claim's hypotheses hold
(`[a, a+1)` matches `[a+1, a+2)` pairwise and no other two blocks share a
fingerprint), but the pipeline returns no candidate at all, because the
minimum-size filter `(stop - start) > 2` rejects the expanded range. -/
theorem single_overlap_counterexample :
    (∀ i, i < 1 → ([0, 0] : List Nat)[0 + i]? = [0, 0][0 + 1 + i]?) ∧
    (∀ j, j < ([0, 0] : List Nat).length → ∀ i, i < j →
      ([0, 0] : List Nat)[i]? = [0, 0][j]? → (j = i + 1 ∧ 0 ≤ i ∧ i < 0 + 1)) ∧
    0 + 2 * 1 ≤ ([0, 0] : List Nat).length ∧
    find_overlap_from_hashes ([0, 0] : List Nat) = [] := by
  decide

end FindOverlap
